import Mathlib

/-!
# Verification of the `cq` static-quality analyzer

This file is a shallow embedding, in Lean 4, of the core algorithms of the
`cq` code-quality analyzer (package `cq`: analyzers for typing, lint,
duplication, complexity and architecture, plus the scoring/aggregation
runner), together with theorems settling the specification claims about it.

Modelling conventions:
* Python `float` values are modelled as exact rationals (`ℚ`); the claims
  verified here concern branch selection, exact defaults and order/bound
  properties that are independent of binary rounding.  The per-file base
  confidence, which uses `math.log1p`, is modelled over `ℝ` with `Real.log`.
* Python dictionaries are modelled as association lists (`List (key × value)`)
  with `List.lookup`; `dict.get(k, d)` becomes `(m.lookup k).getD d`.
  Iteration over `dict.items()` is iteration over the association list.
* Python `int` is `ℤ` (or `ℕ` where the source value is a count).
* Fallible operations (list indexing that can raise `IndexError`) return
  `Option`.
-/

/-! ## Typing analyzer: score curve

`TypingAnalyzer.analyze` (src/cq/analyzers/typing.py, lines 64-74):

```
for path, loc in loc_map.items():
    err_count = errors.get(path, 0)
    density = err_count * 1000 / max(1, loc)
    max_score = self.config.scoring.typing_error_scale.max_score_at_0
    zero_score_at = self.config.scoring.typing_error_scale.zero_score_at_20
    if density >= zero_score_at:
        score = 0.0
    else:
        score = max(0.0, max_score - (max_score / zero_score_at) * density)
    scores[path] = score
```

Note that when `zero_score_at = 0` the `else` branch (the only place that
divides by `zero_score_at`) is unreachable, because `density ≥ 0` always
holds; Lean's convention `q / 0 = 0` therefore never disagrees with the
Python code on a reachable path. -/

/-- Error density `err_count * 1000 / max(1, loc)` of typing.py line 67. -/
def typingDensity (errCount loc : ℕ) : ℚ :=
  (errCount : ℚ) * 1000 / ((max 1 loc : ℕ) : ℚ)

/-- The per-file typing score of typing.py lines 67-73. -/
def typingScore (maxScore zeroScoreAt : ℚ) (errCount loc : ℕ) : ℚ :=
  let density := typingDensity errCount loc
  if zeroScoreAt ≤ density then 0
  else max 0 (maxScore - maxScore / zeroScoreAt * density)

/-- The `scores` dictionary built by `TypingAnalyzer.analyze` (typing.py
lines 64-74): one entry per entry of `loc_map`, keyed by the same keys. -/
def typingScores (maxScore zeroScoreAt : ℚ) (errors : List (String × ℕ))
    (locMap : List (String × ℕ)) : List (String × ℚ) :=
  locMap.map fun pl =>
    (pl.1, typingScore maxScore zeroScoreAt ((errors.lookup pl.1).getD 0) pl.2)

/-! ## Lint analyzer: weighted score

`LintAnalyzer.analyze` (src/cq/analyzers/lint.py, lines 64-70):

```
for path, cat_counts in counts.items():
    total = 0.0
    for cat, count in cat_counts.items():
        weight = weights.get(cat, 0.0)
        total += weight * count
    weighted_scores[path] = max(0.0, 100.0 - total)
```
-/

/-- The per-file weighted lint score of lint.py lines 65-70, for one file's
category counts. -/
def lintWeightedScore (weights : List (String × ℚ)) (catCounts : List (String × ℕ)) : ℚ :=
  let total := catCounts.foldl (fun acc cc => acc + (weights.lookup cc.1).getD 0 * cc.2) 0
  max 0 (100 - total)

/-! ## Complexity analyzer: score curve

`ComplexityAnalyzer.analyze` (src/cq/analyzers/complexity.py, lines 43-53):

```
loc = max(1, loc_map.get(path, 1))
per = complexity / loc
target = self.config.scoring.complexity_scale.target_per_loc
hard_cap = self.config.scoring.complexity_scale.hard_cap
if complexity >= hard_cap:
    score = 0.0
else:
    ratio = min(1.0, per / max(target, 1e-6))
    score = max(0.0, 100.0 * (1 - ratio))
```
-/

/-- The per-file complexity score of complexity.py lines 43-53 (`complexity`
is the raw cognitive complexity, `hard_cap` is an `int` in the config). -/
def complexityScore (target : ℚ) (hardCap : ℤ) (complexity loc : ℕ) : ℚ :=
  let locC : ℕ := max 1 loc
  let per : ℚ := (complexity : ℚ) / (locC : ℚ)
  if (hardCap : ℚ) ≤ (complexity : ℚ) then 0
  else max 0 (100 * (1 - min 1 (per / max target (1 / 1000000))))

/-! ## Runner: per-file grade

`_weighted_grade` (src/cq/runner.py, lines 188-196). -/

/-- The four per-file metric values that `_weighted_grade` consumes. -/
structure GradeInputs where
  duplication_ratio : ℚ
  lint_weighted_score : ℚ
  typing_score : ℚ
  complexity_score : ℚ

/-- `sum(weights.values())`. -/
def sumValues (weights : List (String × ℚ)) : ℚ := (weights.map Prod.snd).sum

/-- `_weighted_grade` of runner.py lines 188-196. -/
def weightedGrade (m : GradeInputs) (weights : List (String × ℚ)) : ℚ :=
  ((1 - m.duplication_ratio) * (weights.lookup "duplication").getD 0 * 100
    + m.lint_weighted_score * (weights.lookup "lint").getD 0
    + m.typing_score * (weights.lookup "typing").getD 0
    + m.complexity_score * (weights.lookup "complexity").getD 0)
  / max (1 / 1000000) (sumValues weights)

/-! ## Claim C1

The claim: with `zero_score_at_20 = 0` (the default configuration value,
src/cq/config.py line 65), the typing score is `0` exactly when the density
is positive, and in particular a file with zero typing errors receives
`max_score_at_0`.

On the code this fails: `density >= zero_score_at` with `zero_score_at = 0`
is true for density `0` as well, so every file scores `0`, including files
with zero typing errors. -/

/-- C1 counterexample: with the default configuration
(`max_score_at_0 = 100`, `zero_score_at_20 = 0`), a file with zero typing
errors and 10 lines does *not* receive `max_score_at_0 = 100` (it receives
`0`), refuting the claim at this concrete input. -/
theorem C1_counterexample : ¬ (typingScore 100 0 0 10 = 100) := by
  norm_num [typingScore, typingDensity]

/-- C1 (amended): with `zero_score_at_20 = 0`, the typing score is `0` for
*every* error count and LOC, including zero density: the comparison
`density >= zero_score_at` on typing.py line 70 is non-strict and density is
never negative. -/
theorem C1_zero_config_always_zero (maxScore : ℚ) (errCount loc : ℕ) :
    typingScore maxScore 0 errCount loc = 0 := by
  have hd : (0 : ℚ) ≤ typingDensity errCount loc := by
    unfold typingDensity; positivity
  unfold typingScore
  rw [if_pos hd]

/-! ## Claim C2

`Runner.run` (src/cq/runner.py) keys `loc_map` — and hence the typing
analyzer keys its `scores` — by paths *relative* to the scan root
(`rel_path = str(path.relative_to(root_path))`, line 39), but looks the
typing score up under the *joined* path
(`typing.scores.get(str(root_path / rel_path), 100.0)`, line 72).

Realisability facts used as hypotheses: `fs.iter_python_files` yields
absolute paths (`path.resolve()`), and `Path.relative_to` only succeeds —
i.e. the scan only reaches the reporting loop — when `root_path` is an
absolute prefix of them; the resulting relative paths never begin with
`/`.  We model "absolute" as "the first character is `/`". -/

/-- `str(root_path / rel_path)` for a POSIX `root_path` and a non-empty
relative `rel_path`: `Path(".") / r` is `r`, `Path("/") / r` is `/r`, and
otherwise the two are joined with a single `/`. -/
def pyJoin (root rel : String) : String :=
  if root = "." then rel
  else if root.endsWith "/" then root ++ rel
  else root ++ "/" ++ rel

/-- First character is `'/'` (our model of "absolute POSIX path"). -/
def isAbsPath (s : String) : Prop := s.data.head? = some '/'

/-- The typing score stored in a `FileReport`:
`typing.scores.get(str(root_path / rel_path), 100.0)` (runner.py line 72). -/
def storedTypingScore (root : String) (scores : List (String × ℚ)) (rel : String) : ℚ :=
  (scores.lookup (pyJoin root rel)).getD 100

/-- Joining onto an absolute root yields an absolute path. -/
theorem pyJoin_isAbs (root rel : String) (h : isAbsPath root) :
    isAbsPath (pyJoin root rel) := by
  have hne : root ≠ "." := by
    intro he
    rw [he] at h
    simp [isAbsPath] at h
  unfold pyJoin
  rw [if_neg hne]
  have hd : root.data ≠ [] := by
    intro he
    unfold isAbsPath at h
    rw [he] at h
    simp at h
  have habs : ∀ t : String, isAbsPath (root ++ t) := by
    intro t
    unfold isAbsPath at h ⊢
    rw [String.data_append]
    cases hc : root.data with
    | nil => exact absurd hc hd
    | cons c cs =>
        rw [hc] at h
        simpa using h
  by_cases he : root.endsWith "/"
  · rw [if_pos he]; exact habs rel
  · rw [if_neg he]
    have := habs ("/" ++ rel)
    rwa [← String.append_assoc] at this

/-- A key that differs from every key of an association list is not found. -/
theorem lookup_eq_none_of_forall_ne {α : Type} (l : List (String × α)) (key : String)
    (h : ∀ p ∈ l, key ≠ p.1) : l.lookup key = none := by
  induction l with
  | nil => rfl
  | cons hd tl ih =>
      have hne : key ≠ hd.1 := h hd (List.mem_cons_self hd tl)
      have : (key == hd.1) = false := by
        simp [hne]
      simp only [List.lookup, this]
      exact ih (fun p hp => h p (List.mem_cons_of_mem hd hp))

/-- C2: in any scan that reaches the reporting loop (absolute root, relative
`loc_map` keys), the typing score stored for every file is exactly `100`,
for *every* error map the type checker could produce: the joined lookup key
is absolute while `TypingAnalyzer.analyze` keys its scores by the relative
`loc_map` keys. -/
theorem C2_stored_typing_score_neutral (root : String) (locMap errors : List (String × ℕ))
    (maxScore zeroAt : ℚ) (rel : String)
    (hroot : isAbsPath root) (hkeys : ∀ p ∈ locMap, ¬ isAbsPath p.1) :
    storedTypingScore root (typingScores maxScore zeroAt errors locMap) rel = 100 := by
  unfold storedTypingScore
  have hnone : (typingScores maxScore zeroAt errors locMap).lookup (pyJoin root rel) = none := by
    apply lookup_eq_none_of_forall_ne
    intro p hp
    unfold typingScores at hp
    rcases List.mem_map.mp hp with ⟨pl, hpl, hpe⟩
    intro he
    apply hkeys pl hpl
    have : p.1 = pl.1 := by rw [← hpe]
    rw [← this, ← he]
    exact pyJoin_isAbs root rel hroot
  rw [hnone]
  rfl

/-- C2 witness: concrete scan shape with root `/repo`, one file `mod.py`
with 10 lines and 7 typing errors under the joined key: the stored score is
still 100. -/
theorem C2_witness :
    storedTypingScore "/repo"
      (typingScores 100 20 [("/repo/mod.py", 7)] [("mod.py", 10)]) "mod.py" = 100 :=
  C2_stored_typing_score_neutral "/repo" [("mod.py", 10)] [("/repo/mod.py", 7)] 100 20 "mod.py"
    (by simp [isAbsPath])
    (by intro p hp; simp at hp; rw [hp]; simp [isAbsPath])

/-! ## Claim C3: duplication overlap ratios

`DuplicationAnalyzer._compute_ratios` (src/cq/analyzers/duplication.py,
lines 89-103):

```
for path, fprints in items:
    if not fprints:
        ratio[path] = 0.0
        continue
    overlaps = 0
    set_self = set(fprints)
    for other_path, other_fprints in items:
        if other_path == path:
            continue
        overlaps += len(set_self.intersection(other_fprints))
    ratio[path] = min(1.0, overlaps / max(1, len(set_self)))
```

`set(fprints)` is modelled by `List.dedup`, and
`len(set_self.intersection(other_fprints))` — the number of *distinct*
values of `set_self` occurring in `other_fprints` — by
`(setSelf.filter (fun v => other.contains v)).length`. -/

/-- `_compute_ratios` of duplication.py lines 89-103. -/
def computeRatios (fps : List (String × List ℕ)) : List (String × ℚ) :=
  fps.map fun pf =>
    if pf.2 = [] then (pf.1, 0)
    else
      let setSelf := pf.2.dedup
      let overlaps : ℕ := fps.foldl
        (fun acc pg => if pg.1 = pf.1 then acc
          else acc + (setSelf.filter (fun v => pg.2.contains v)).length) 0
      (pf.1, min 1 ((overlaps : ℚ) / ((max 1 setSelf.length : ℕ) : ℚ)))

/-- The overlap count in the words of the claim (and of spec §4.2):
`overlap_count(f) = Σ_{g ≠ f} |S_f ∩ multiset(F_g)|`, i.e. the elements of
`F_g` that lie in `S_f`, *counted with multiplicity*. -/
def specOverlapCount (fps : List (String × List ℕ)) (f : String) (Ff : List ℕ) : ℕ :=
  fps.foldl
    (fun acc pg => if pg.1 = f then acc
      else acc + (pg.2.filter (fun v => Ff.dedup.contains v)).length) 0

/-- C3 counterexample: for the fingerprint map
`{f.py ↦ [1, 2], g.py ↦ [1, 1]}` the code computes
`overlap_count(f.py) = 1` (the duplicated hash `1` of `g.py` is counted
once, because `set.intersection` deduplicates) and `ratio(f.py) = 1/2`,
whereas the claim's multiset formula gives `overlap_count = 2` and hence
`ratio = min(1, 2/2) = 1`. -/
theorem C3_counterexample :
    (computeRatios [("f.py", [1, 2]), ("g.py", [1, 1])]).lookup "f.py" = some (1 / 2)
      ∧ specOverlapCount [("f.py", [1, 2]), ("g.py", [1, 1])] "f.py" [1, 2] = 2
      ∧ ¬ ((1 : ℚ) / 2 = min 1 ((2 : ℚ) / 2)) := by
  refine ⟨?_, ?_, ?_⟩
  · simp [computeRatios, List.dedup, List.foldl, List.filter, List.lookup]
    norm_num
  · simp [specOverlapCount, List.dedup, List.foldl, List.filter]
  · norm_num

/-- Rewrites the skipping accumulation loop of `_compute_ratios` as a sum
over the entries whose key differs. -/
theorem foldl_skip_eq_sum {α : Type} (l : List α) (c : α → Prop) [DecidablePred c]
    (h : α → ℕ) (a : ℕ) :
    l.foldl (fun acc x => if c x then acc else acc + h x) a
      = a + ((l.filter (fun x => ¬ c x)).map h).sum := by
  induction l generalizing a with
  | nil => simp
  | cons hd tl ih =>
      by_cases hc : c hd
      · simp [List.foldl, hc, ih]
      · simp [List.foldl, hc, ih (a + h hd)]
        ring

/-- `len(set(F).intersection(G))` equals the cardinality of the finite-set
intersection `S_F ∩ S_G`. -/
theorem dedup_filter_length_eq_inter_card (F G : List ℕ) :
    (F.dedup.filter (fun v => G.contains v)).length = (F.toFinset ∩ G.toFinset).card := by
  have hnd : (F.dedup.filter (fun v => G.contains v)).Nodup := F.nodup_dedup.filter _
  have hset : (F.dedup.filter (fun v => G.contains v)).toFinset = F.toFinset ∩ G.toFinset := by
    apply Finset.ext
    intro v
    simp [List.mem_filter, List.mem_dedup]
  rw [← hset, List.toFinset_card_of_nodup hnd]

/-- C3 (amended): the code's overlap count is the *set* overlap
`overlap_count(f) = Σ_{g ≠ f} |S_f ∩ S_g|` — each shared hash value counted
once per other file, regardless of its multiplicity in `F_g` — and
`ratio(f) = min(1, overlap_count(f) / max(1, |S_f|))`, with ratio `0` for an
empty fingerprint list. -/
theorem C3_ratio_characterization (fps : List (String × List ℕ)) :
    computeRatios fps = fps.map (fun pf =>
      if pf.2 = [] then (pf.1, 0)
      else (pf.1, min 1
        (((((fps.filter (fun pg => pg.1 ≠ pf.1)).map
              (fun pg => (pf.2.toFinset ∩ pg.2.toFinset).card)).sum : ℕ) : ℚ)
          / ((max 1 pf.2.toFinset.card : ℕ) : ℚ)))) := by
  unfold computeRatios
  apply List.map_congr_left
  intro pf _
  by_cases he : pf.2 = []
  · simp [he]
  · rw [if_neg he, if_neg he]
    have hfold := foldl_skip_eq_sum fps (fun pg => pg.1 = pf.1)
      (fun pg => (pf.2.dedup.filter (fun v => pg.2.contains v)).length) 0
    simp only [hfold, Nat.zero_add]
    have hmap : (fps.filter (fun pg => ¬ pg.1 = pf.1)).map
          (fun pg => (pf.2.dedup.filter (fun v => pg.2.contains v)).length)
        = (fps.filter (fun pg => pg.1 ≠ pf.1)).map
          (fun pg => (pf.2.toFinset ∩ pg.2.toFinset).card) := by
      apply List.map_congr_left
      intro pg _
      exact dedup_filter_length_eq_inter_card pf.2 pg.2
    rw [hmap, List.card_toFinset]

/-! ## Claim C9: bootstrap interval

`_bootstrap_interval` (src/cq/runner.py, lines 218-232):

```
if not values:
    return [0.0, 0.0]
rng = Random(seed)
samples = []
for _ in range(iterations):
    sample = [rng.choice(values) for _ in values]
    samples.append(statistics.mean(sample))
samples.sort()
n = len(samples)
lower_idx = max(0, int(0.05 * (n - 1)))
upper_idx = min(n - 1, int(0.95 * (n - 1)))
lower = samples[lower_idx]
upper = samples[upper_idx]
return [lower, upper]
```

The PRNG is abstracted: `rng.choice(values)` is modelled as
`values[pick t j % len(values)]` for an arbitrary function `pick` (the
trial and position indices), which ranges over every possible sequence of
in-range choices.  `int(...)` on a non-negative float truncates toward
zero (`pyTrunc`), `samples.sort()` is an ascending stable sort, and list
indexing (which can raise `IndexError`) returns an `Option`. -/

/-- Python `int(q)`: truncation toward zero. -/
def pyTrunc (q : ℚ) : ℤ := if 0 ≤ q then ⌊q⌋ else ⌈q⌉

/-- Python list indexing `l[i]` with negative-index wrap-around; `none`
models `IndexError`. -/
def pyGet (l : List ℚ) (i : ℤ) : Option ℚ :=
  if 0 ≤ i then l.get? i.toNat
  else if (-i).toNat ≤ l.length then l.get? (l.length - (-i).toNat)
  else none

/-- The list of bootstrap sample means (`samples` before sorting). -/
def bootstrapSamples (values : List ℚ) (iterations : ℕ) (pick : ℕ → ℕ → ℕ) : List ℚ :=
  (List.range iterations).map fun t =>
    ((List.range values.length).map fun j =>
      values.getD (pick t j % values.length) 0).sum / (values.length : ℚ)

/-- `_bootstrap_interval` of runner.py lines 218-232. -/
def bootstrapInterval (values : List ℚ) (iterations : ℕ) (pick : ℕ → ℕ → ℕ) :
    Option (List ℚ) :=
  if values = [] then some [0, 0]
  else
    let samples := List.insertionSort (· ≤ ·) (bootstrapSamples values iterations pick)
    let n : ℤ := (samples.length : ℤ)
    let lowerIdx : ℤ := max 0 (pyTrunc ((1 : ℚ) / 20 * ((n : ℚ) - 1)))
    let upperIdx : ℤ := min (n - 1) (pyTrunc ((19 : ℚ) / 20 * ((n : ℚ) - 1)))
    match pyGet samples lowerIdx, pyGet samples upperIdx with
    | some lo, some hi => some [lo, hi]
    | _, _ => none

/-- C9: for non-empty `values` and `iterations ≥ 1` the truncated indices
are in bounds (`0 ≤ int(0.05(n-1)) ≤ int(0.95(n-1)) ≤ n-1`), the interval
is `some [lo, hi]` with `lo ≤ hi` and both endpoints drawn from the sampled
means — and with `iterations = 0` on non-empty `values` the index access is
out of bounds (`none`), so `iterations ≥ 1` is a necessary precondition. -/
theorem C9_bootstrap_interval_safe (values : List ℚ) (iterations : ℕ)
    (pick : ℕ → ℕ → ℕ) (hv : values ≠ []) (hi : 1 ≤ iterations) :
    (0 ≤ pyTrunc ((1 : ℚ) / 20 * ((iterations : ℚ) - 1))
      ∧ pyTrunc ((1 : ℚ) / 20 * ((iterations : ℚ) - 1))
          ≤ pyTrunc ((19 : ℚ) / 20 * ((iterations : ℚ) - 1))
      ∧ pyTrunc ((19 : ℚ) / 20 * ((iterations : ℚ) - 1)) ≤ (iterations : ℤ) - 1)
    ∧ (∃ lo hi, bootstrapInterval values iterations pick = some [lo, hi]
        ∧ lo ≤ hi
        ∧ lo ∈ bootstrapSamples values iterations pick
        ∧ hi ∈ bootstrapSamples values iterations pick)
    ∧ bootstrapInterval values 0 pick = none := by
  have hx : (0 : ℚ) ≤ (iterations : ℚ) - 1 := by
    have : (1 : ℚ) ≤ (iterations : ℚ) := by exact_mod_cast hi
    linarith
  have ha0 : (0 : ℚ) ≤ (1 : ℚ) / 20 * ((iterations : ℚ) - 1) := by positivity
  have hb0 : (0 : ℚ) ≤ (19 : ℚ) / 20 * ((iterations : ℚ) - 1) := by positivity
  have hta : pyTrunc ((1 : ℚ) / 20 * ((iterations : ℚ) - 1))
      = ⌊(1 : ℚ) / 20 * ((iterations : ℚ) - 1)⌋ := by
    unfold pyTrunc; rw [if_pos ha0]
  have htb : pyTrunc ((19 : ℚ) / 20 * ((iterations : ℚ) - 1))
      = ⌊(19 : ℚ) / 20 * ((iterations : ℚ) - 1)⌋ := by
    unfold pyTrunc; rw [if_pos hb0]
  have hbound0 : 0 ≤ pyTrunc ((1 : ℚ) / 20 * ((iterations : ℚ) - 1)) := by
    rw [hta]; exact Int.floor_nonneg.mpr ha0
  have hboundab : pyTrunc ((1 : ℚ) / 20 * ((iterations : ℚ) - 1))
      ≤ pyTrunc ((19 : ℚ) / 20 * ((iterations : ℚ) - 1)) := by
    rw [hta, htb]
    apply Int.floor_le_floor
    nlinarith
  have hboundb : pyTrunc ((19 : ℚ) / 20 * ((iterations : ℚ) - 1)) ≤ (iterations : ℤ) - 1 := by
    rw [htb]
    have h1 : (19 : ℚ) / 20 * ((iterations : ℚ) - 1) ≤ ((iterations : ℤ) - 1 : ℤ) := by
      push_cast
      nlinarith
    calc ⌊(19 : ℚ) / 20 * ((iterations : ℚ) - 1)⌋
        ≤ ⌊(((iterations : ℤ) - 1 : ℤ) : ℚ)⌋ := Int.floor_le_floor h1
      _ = (iterations : ℤ) - 1 := Int.floor_intCast _
  refine ⟨⟨hbound0, hboundab, hboundb⟩, ?_, ?_⟩
  · -- main interval
    set samples := List.insertionSort (· ≤ ·) (bootstrapSamples values iterations pick)
      with hsamp
    have hlen : samples.length = iterations := by
      rw [hsamp, List.length_insertionSort]
      unfold bootstrapSamples
      simp
    have hn : ((samples.length : ℤ) : ℚ) = (iterations : ℚ) := by
      rw [hlen]
      push_cast
      rfl
    have hsorted : samples.Sorted (· ≤ ·) := List.sorted_insertionSort _ _
    have hperm : List.Perm samples (bootstrapSamples values iterations pick) :=
      List.perm_insertionSort _ _
    -- the effective indices
    set a : ℤ := pyTrunc ((1 : ℚ) / 20 * ((iterations : ℚ) - 1)) with hadef
    set b : ℤ := pyTrunc ((19 : ℚ) / 20 * ((iterations : ℚ) - 1)) with hbdef
    have hmax : max 0 a = a := max_eq_right hbound0
    have hmin : min ((iterations : ℤ) - 1) b = b := min_eq_right hboundb
    have hblt : b < (iterations : ℤ) := by omega
    have haltn : a.toNat < samples.length := by
      rw [hlen]
      omega
    have hbltn : b.toNat < samples.length := by
      rw [hlen]
      omega
    have habn : a.toNat ≤ b.toNat := by omega
    have hgeta : pyGet samples a = some (samples.get ⟨a.toNat, haltn⟩) := by
      unfold pyGet
      rw [if_pos hbound0]
      exact List.get?_eq_get haltn
    have hgetb : pyGet samples b = some (samples.get ⟨b.toNat, hbltn⟩) := by
      unfold pyGet
      rw [if_pos (le_trans hbound0 hboundab)]
      exact List.get?_eq_get hbltn
    refine ⟨samples.get ⟨a.toNat, haltn⟩, samples.get ⟨b.toNat, hbltn⟩, ?_, ?_, ?_, ?_⟩
    · unfold bootstrapInterval
      rw [if_neg hv]
      simp only
      rw [← hsamp]
      simp only [hlen]
      push_cast
      rw [← hadef, ← hbdef, hmax, hmin, hgeta, hgetb]
    · exact hsorted.rel_get_of_le habn
    · exact hperm.subset (List.get_mem samples _ _)
    · exact hperm.subset (List.get_mem samples _ _)
  · -- iterations = 0 is out of bounds
    have hempty : bootstrapSamples values 0 pick = [] := by
      unfold bootstrapSamples
      simp
    unfold bootstrapInterval
    rw [if_neg hv, hempty]
    have hc1 : pyTrunc ((1 : ℚ) / 20 * ((((List.length ([] : List ℚ) : ℤ)) : ℚ) - 1)) = 0 := by
      unfold pyTrunc
      norm_num
    simp only [List.insertionSort, hc1]
    simp [pyGet]

/-- C9 witness: the theorem applied at the concrete input
`values = [3]`, `iterations = 1`, with the constant choice function. -/
theorem C9_witness :
    (0 ≤ pyTrunc ((1 : ℚ) / 20 * (((1 : ℕ) : ℚ) - 1))
      ∧ pyTrunc ((1 : ℚ) / 20 * (((1 : ℕ) : ℚ) - 1))
          ≤ pyTrunc ((19 : ℚ) / 20 * (((1 : ℕ) : ℚ) - 1))
      ∧ pyTrunc ((19 : ℚ) / 20 * (((1 : ℕ) : ℚ) - 1)) ≤ ((1 : ℕ) : ℤ) - 1)
    ∧ (∃ lo hi, bootstrapInterval [3] 1 (fun _ _ => 0) = some [lo, hi]
        ∧ lo ≤ hi
        ∧ lo ∈ bootstrapSamples [3] 1 (fun _ _ => 0)
        ∧ hi ∈ bootstrapSamples [3] 1 (fun _ _ => 0))
    ∧ bootstrapInterval [3] 0 (fun _ _ => 0) = none :=
  C9_bootstrap_interval_safe [3] 1 (fun _ _ => 0) (by simp) (le_refl 1)

/-! ## Claim C10: architecture analyzer skips unparseable files

`ArchitectureAnalyzer` (src/cq/analyzers/architecture.py).  A source file is
abstracted by its `safe_parse` outcome: `none` when parsing fails
(`safe_parse` returns `ok = False`), and otherwise `some imports`, where
`imports` is the sequence of `(full_name, root_name)` pairs that
`iter_imports` yields on the parsed tree. -/

/-- An architecture violation record (architecture.py lines 13-18). -/
structure ArchViolation where
  file : String
  from_layer : String
  to_layer : String
  import_name : String
deriving DecidableEq, Repr

/-- `self.sorted_prefixes`: the mapping items sorted by decreasing key
length (architecture.py line 24; Python's stable sort keeps the original
order of equal-length keys). -/
def sortedMappingItems (mapping : List (String × String)) : List (String × String) :=
  List.insertionSort (fun a b => b.1.length ≤ a.1.length) mapping

/-- `_layer_for_path` (architecture.py lines 50-55): normalize `\` to `/`,
then return the layer of the first (longest) matching key. -/
def layerForPath (sortedItems : List (String × String)) (path : String) : Option String :=
  let normalized := path.replace "\\" "/"
  sortedItems.findSome? fun pl =>
    if pl.1.isPrefixOf normalized then some pl.2 else none

/-- `_layer_for_module` (architecture.py lines 57-62): normalize `.` to `/`,
then return the layer of the first (longest) matching key. -/
def layerForModule (sortedItems : List (String × String)) (module : String) : Option String :=
  let normalized := module.replace "." "/"
  sortedItems.findSome? fun pl =>
    if pl.1.isPrefixOf normalized then some pl.2 else none

/-- `ArchitectureAnalyzer.analyze` (architecture.py lines 26-48), over
files given as `(path, safe_parse outcome)` pairs; a parsed file is its
`iter_imports` sequence of `(full_name, root_name)` pairs. -/
def archAnalyze (mapping : List (String × String)) (allowedEdges : List (List String))
    (files : List (String × Option (List (String × String)))) : List ArchViolation :=
  let sortedItems := sortedMappingItems mapping
  (files.map fun pf =>
    match pf.2 with
    | none => []
    | some imports =>
        match layerForPath sortedItems pf.1 with
        | none => []
        | some fromLayer =>
            imports.filterMap fun im =>
              match layerForModule sortedItems (if im.1 ≠ "" then im.1 else im.2) with
              | none => none
              | some targetLayer =>
                  if [fromLayer, targetLayer] ∈ allowedEdges then none
                  else some ⟨pf.1, fromLayer, targetLayer, im.1⟩).flatten

/-- C10: a file whose source fails to parse (its `safe_parse` outcome is
`none`) contributes no architecture violations: every emitted violation
names some other file. -/
theorem C10_unparseable_no_violations (mapping : List (String × String))
    (allowedEdges : List (List String))
    (files : List (String × Option (List (String × String)))) (p : String)
    (hp : ∀ imports, (p, some imports) ∉ files) :
    ∀ v ∈ archAnalyze mapping allowedEdges files, v.file ≠ p := by
  intro v hv
  unfold archAnalyze at hv
  rw [List.mem_flatten] at hv
  rcases hv with ⟨block, hblock, hvb⟩
  rw [List.mem_map] at hblock
  rcases hblock with ⟨pf, hpf, hbe⟩
  rcases pf with ⟨path, outcome⟩
  cases outcome with
  | none =>
      rw [← hbe] at hvb
      simp at hvb
  | some imports =>
      cases hl : layerForPath (sortedMappingItems mapping) path with
      | none =>
          rw [← hbe] at hvb
          simp [hl] at hvb
      | some fromLayer =>
          rw [← hbe] at hvb
          simp only [hl] at hvb
          rw [List.mem_filterMap] at hvb
          rcases hvb with ⟨im, _, him⟩
          cases hm : layerForModule (sortedMappingItems mapping)
              (if im.1 ≠ "" then im.1 else im.2) with
          | none =>
              rw [hm] at him
              simp at him
          | some targetLayer =>
              rw [hm] at him
              dsimp only at him
              by_cases he : [fromLayer, targetLayer] ∈ allowedEdges
              · rw [if_pos he] at him
                simp at him
              · rw [if_neg he] at him
                have hv2 := Option.some_injective _ him
                have hfile : v.file = path := by rw [← hv2]
                intro hvp
                rw [hfile] at hvp
                exact hp imports (hvp ▸ hpf)

/-- C10 witness: a two-file scan where `bad.py` fails to parse; no emitted
violation names `bad.py`. -/
theorem C10_witness :
    "src/bad.py" ∉ (archAnalyze [("src/core", "core"), ("src/ui", "ui")]
        [["core", "core"], ["ui", "ui"]]
        [("src/ui/view.py", some [("src.core.service", "src")]),
          ("src/bad.py", none)]).map (fun v => v.file) := by
  intro hmem
  rw [List.mem_map] at hmem
  obtain ⟨v, hv, hfile⟩ := hmem
  exact C10_unparseable_no_violations _ _ _ _ (by intro imports h; simp at h) v hv hfile

/-! ## Runner: per-file confidences and project aggregation

`Runner.run` lines 63-92 (confidences) and `_aggregate_project`
(runner.py lines 199-215). -/

/-- `base_conf` of runner.py lines 83-84:
`min(1.0, math.log1p(loc) / math.log1p(300))`, multiplied by `0.6` when the
file failed to parse. -/
noncomputable def baseConf (loc : ℕ) (parseOk : Bool) : ℝ :=
  min 1 (Real.log (1 + (loc : ℝ)) / Real.log (1 + 300)) * (if parseOk then 1 else 0.6)

/-- The per-file confidence dictionary of runner.py lines 67, 73, 78, 82 and
85-92. -/
structure FileConf where
  duplication : ℝ
  lint : ℝ
  typing : ℝ
  complexity : ℝ
  overall : ℝ

/-- Per-file confidences (runner.py lines 67, 73, 78, 82, 85-92):
`dupSuccess` is `duplication.parser_success.get(rel_path, False)`, `parseOk`
the runner's own `safe_parse` flag, and the degraded flags come from the
two external-tool adapters.  `overall` is `min(1.0, statistics.mean(...))`
of the four metric confidences. -/
noncomputable def fileConf (loc : ℕ) (parseOk dupSuccess lintDegraded typingDegraded : Bool) : FileConf :=
  let base := baseConf loc parseOk
  let d := base * (if dupSuccess then 1 else 0.5)
  let l := base * (if lintDegraded then 0.4 else 1)
  let t := base * (if typingDegraded then 0.4 else 1)
  let c := base * (if parseOk then 1 else 0.5)
  ⟨d, l, t, c, min 1 ((d + l + t + c) / 4)⟩

/-- The fields of a `FileReport` that `_aggregate_project` reads. -/
structure FileAgg where
  role : String
  loc : ℕ
  duplication_ratio : ℚ
  lint_weighted_score : ℚ
  typing_score : ℚ
  complexity_score : ℚ
  grade : ℚ

/-- `role_weights.get(role, role_weights.get("default", 1.0)) * loc`
(runner.py lines 203-204). -/
def roleFactor (roleWeights : List (String × ℚ)) (role : String) (loc : ℕ) : ℚ :=
  (roleWeights.lookup role).getD ((roleWeights.lookup "default").getD 1) * (loc : ℚ)

/-- The five project summary metrics of `_aggregate_project` (runner.py
lines 199-215).  The code keeps one `weight_totals[key]` per key but
increments all five by the same `factor`, so they are all equal to `wtot`;
`if weight_totals[key] else 0.0` is Python truthiness on a float, i.e. the
quotient is replaced by `0.0` exactly when `wtot == 0`. -/
def aggregateProject (files : List FileAgg) (roleWeights : List (String × ℚ)) :
    List (String × ℚ) :=
  let factor := fun f => roleFactor roleWeights f.role f.loc
  let wtot := (files.map factor).sum
  let out := fun total => if wtot = 0 then (0 : ℚ) else total / max (1 / 1000000) wtot
  [("duplication", out ((files.map fun f => (1 - f.duplication_ratio) * factor f * 100).sum)),
   ("lint", out ((files.map fun f => f.lint_weighted_score * factor f).sum)),
   ("typing", out ((files.map fun f => f.typing_score * factor f).sum)),
   ("complexity", out ((files.map fun f => f.complexity_score * factor f).sum)),
   ("grade", out ((files.map fun f => f.grade * factor f).sum))]

/-- Project per-metric confidence: `statistics.mean` of the per-file
confidences when there are files, else `0.0` (runner.py lines 127-139). -/
noncomputable def projMeanConf (cs : List ℝ) : ℝ :=
  if cs = [] then 0 else cs.sum / (cs.length : ℝ)

/-! ## Claim C8: bound invariants

The claim quantifies over *every* configuration.  It fails: scores are not
clamped from above when the configuration carries out-of-range values
(e.g. `max_score_at_0 = 200`, which `Config.from_dict` accepts unchecked).
Under the natural restrictions — nonnegative category/metric/role weights
and `0 ≤ max_score_at_0 ≤ 100` — all the bounds hold. -/

/-- C8 counterexample: with the configurable `max_score_at_0 = 200`
(`zero_score_at_20 = 20`), a clean file's typing score is `200 > 100`:
scores are not clamped to `[0, 100]` for every configuration. -/
theorem C8_counterexample : ¬ (typingScore 200 20 0 10 ≤ 100) := by
  norm_num [typingScore, typingDensity]

/-- A defaulted dictionary lookup in a dictionary of nonnegative values,
with a nonnegative default, is nonnegative. -/
theorem lookup_getD_nonneg (w : List (String × ℚ)) (k : String) (d : ℚ)
    (hd : 0 ≤ d) (h : ∀ p ∈ w, 0 ≤ p.2) : 0 ≤ (w.lookup k).getD d := by
  induction w with
  | nil => simpa using hd
  | cons hd' tl ih =>
      by_cases he : k = hd'.1
      · have : (k == hd'.1) = true := by simpa using he
        rcases hd' with ⟨k', v'⟩
        simp only [List.lookup, this, Option.getD_some]
        exact h (k', v') (List.mem_cons_self _ _)
      · have : (k == hd'.1) = false := by simpa using he
        rcases hd' with ⟨k', v'⟩
        simp only [List.lookup, this] at *
        exact ih (fun p hp => h p (List.mem_cons_of_mem _ hp))

/-- The lint penalty accumulator stays nonnegative when all category
weights are nonnegative. -/
theorem lint_total_nonneg (w : List (String × ℚ)) (cc : List (String × ℕ)) (acc : ℚ)
    (hacc : 0 ≤ acc) (h : ∀ p ∈ w, 0 ≤ p.2) :
    0 ≤ cc.foldl (fun a c => a + (w.lookup c.1).getD 0 * c.2) acc := by
  induction cc generalizing acc with
  | nil => simpa using hacc
  | cons c tl ih =>
      apply ih
      have h1 : 0 ≤ (w.lookup c.1).getD 0 := lookup_getD_nonneg w c.1 0 le_rfl h
      have h2 : (0 : ℚ) ≤ (c.2 : ℚ) := by positivity
      show 0 ≤ acc + (w.lookup c.1).getD 0 * (c.2 : ℚ)
      exact add_nonneg hacc (mul_nonneg h1 h2)

/-- Lint weighted score bounds under nonnegative category weights. -/
theorem lintWeightedScore_bounds (w : List (String × ℚ)) (cc : List (String × ℕ))
    (h : ∀ p ∈ w, 0 ≤ p.2) :
    0 ≤ lintWeightedScore w cc ∧ lintWeightedScore w cc ≤ 100 := by
  unfold lintWeightedScore
  constructor
  · exact le_max_left _ _
  · apply max_le (by norm_num)
    have := lint_total_nonneg w cc 0 le_rfl h
    linarith

/-- Typing score bounds under `0 ≤ max_score_at_0 ≤ 100`. -/
theorem typingScore_bounds (ms za : ℚ) (err loc : ℕ) (h0 : 0 ≤ ms) (h1 : ms ≤ 100) :
    0 ≤ typingScore ms za err loc ∧ typingScore ms za err loc ≤ 100 := by
  have hd : (0 : ℚ) ≤ typingDensity err loc := by
    unfold typingDensity; positivity
  unfold typingScore
  by_cases hc : za ≤ typingDensity err loc
  · rw [if_pos hc]
    norm_num
  · rw [if_neg hc]
    constructor
    · exact le_max_left _ _
    · apply max_le (by norm_num)
      have hza : 0 < za := lt_of_le_of_lt hd (lt_of_not_le hc)
      have hx : 0 ≤ ms / za * typingDensity err loc := by positivity
      linarith

/-- Complexity score bounds (unconditional). -/
theorem complexityScore_bounds (target : ℚ) (hardCap : ℤ) (c loc : ℕ) :
    0 ≤ complexityScore target hardCap c loc ∧ complexityScore target hardCap c loc ≤ 100 := by
  unfold complexityScore
  by_cases hc : (hardCap : ℚ) ≤ (c : ℚ)
  · rw [if_pos hc]; norm_num
  · rw [if_neg hc]
    have hper : (0 : ℚ) ≤ (c : ℚ) / ((max 1 loc : ℕ) : ℚ) := by positivity
    have hmx : (0 : ℚ) < max target (1 / 1000000) := by
      apply lt_max_of_lt_right
      norm_num
    have hratio : (0 : ℚ) ≤ (c : ℚ) / ((max 1 loc : ℕ) : ℚ) / max target (1 / 1000000) :=
      div_nonneg hper (le_of_lt hmx)
    have hmin : (0 : ℚ) ≤ min 1 ((c : ℚ) / ((max 1 loc : ℕ) : ℚ) / max target (1 / 1000000)) :=
      le_min (by norm_num) hratio
    constructor
    · exact le_max_left _ _
    · apply max_le (by norm_num)
      nlinarith

/-- The sum of defaulted lookups of pairwise-distinct keys in a dictionary
of nonnegative values is at most the sum of all values. -/
theorem sum_lookups_le (w : List (String × ℚ)) (ks : List String)
    (hks : ks.Nodup) (h : ∀ p ∈ w, 0 ≤ p.2) :
    (ks.map fun k => (w.lookup k).getD 0).sum ≤ sumValues w := by
  induction w generalizing ks with
  | nil =>
      have hz : (ks.map fun k => ((([] : List (String × ℚ)).lookup k).getD 0))
          = ks.map fun _ => (0 : ℚ) :=
        List.map_congr_left (fun k _ => rfl)
      rw [hz]
      simp [sumValues]
  | cons p rest ih =>
      rcases p with ⟨k₀, v₀⟩
      have hv₀ : 0 ≤ v₀ := h (k₀, v₀) (List.mem_cons_self _ _)
      have hrest : ∀ q ∈ rest, 0 ≤ q.2 := fun q hq => h q (List.mem_cons_of_mem _ hq)
      have hsv : sumValues ((k₀, v₀) :: rest) = v₀ + sumValues rest := by
        simp [sumValues]
      by_cases hm : k₀ ∈ ks
      · obtain ⟨l1, l2, rfl⟩ := List.append_of_mem hm
        rw [List.nodup_append] at hks
        obtain ⟨h1, h2, hdisj⟩ := hks
        have hk₀l1 : k₀ ∉ l1 := fun hc => hdisj hc (List.mem_cons_self _ _)
        have hk₀l2 : k₀ ∉ l2 := (List.nodup_cons.mp h2).1
        have h2' : l2.Nodup := (List.nodup_cons.mp h2).2
        have hnd12 : (l1 ++ l2).Nodup := by
          rw [List.nodup_append]
          exact ⟨h1, h2', fun a ha1 ha2 => hdisj ha1 (List.mem_cons_of_mem _ ha2)⟩
        have hf1 : l1.map (fun k => ((((k₀, v₀) :: rest).lookup k).getD 0))
            = l1.map (fun k => ((rest.lookup k).getD 0)) := by
          apply List.map_congr_left
          intro k hk
          have hne : (k == k₀) = false := by
            simp only [beq_eq_false_iff_ne, ne_eq]
            intro he
            exact hk₀l1 (he ▸ hk)
          simp [List.lookup, hne]
        have hf2 : l2.map (fun k => ((((k₀, v₀) :: rest).lookup k).getD 0))
            = l2.map (fun k => ((rest.lookup k).getD 0)) := by
          apply List.map_congr_left
          intro k hk
          have hne : (k == k₀) = false := by
            simp only [beq_eq_false_iff_ne, ne_eq]
            intro he
            exact hk₀l2 (he ▸ hk)
          simp [List.lookup, hne]
        have hfk : ((((k₀, v₀) :: rest).lookup k₀).getD 0) = v₀ := by
          simp [List.lookup]
        have hih := ih (l1 ++ l2) hnd12 hrest
        rw [List.map_append, List.sum_append] at hih
        rw [List.map_append, List.sum_append, List.map_cons, List.sum_cons,
          hf1, hf2, hfk, hsv]
        linarith
      · have hf : ks.map (fun k => ((((k₀, v₀) :: rest).lookup k).getD 0))
            = ks.map (fun k => ((rest.lookup k).getD 0)) := by
          apply List.map_congr_left
          intro k hk
          have hne : (k == k₀) = false := by
            simp only [beq_eq_false_iff_ne, ne_eq]
            intro he
            exact hm (he ▸ hk)
          simp [List.lookup, hne]
        rw [hf, hsv]
        have := ih ks hks hrest
        linarith

/-- Per-file grade bounds: with nonnegative metric weights and in-range
metric inputs, `_weighted_grade` lands in `[0, 100]`. -/
theorem weightedGrade_bounds (g : GradeInputs) (w : List (String × ℚ))
    (hw : ∀ p ∈ w, 0 ≤ p.2)
    (hd0 : 0 ≤ g.duplication_ratio) (hd1 : g.duplication_ratio ≤ 1)
    (hl0 : 0 ≤ g.lint_weighted_score) (hl1 : g.lint_weighted_score ≤ 100)
    (ht0 : 0 ≤ g.typing_score) (ht1 : g.typing_score ≤ 100)
    (hc0 : 0 ≤ g.complexity_score) (hc1 : g.complexity_score ≤ 100) :
    0 ≤ weightedGrade g w ∧ weightedGrade g w ≤ 100 := by
  have hwd : 0 ≤ (w.lookup "duplication").getD 0 := lookup_getD_nonneg w _ 0 le_rfl hw
  have hwl : 0 ≤ (w.lookup "lint").getD 0 := lookup_getD_nonneg w _ 0 le_rfl hw
  have hwt : 0 ≤ (w.lookup "typing").getD 0 := lookup_getD_nonneg w _ 0 le_rfl hw
  have hwc : 0 ≤ (w.lookup "complexity").getD 0 := lookup_getD_nonneg w _ 0 le_rfl hw
  have hsum4 : (w.lookup "duplication").getD 0 + (w.lookup "lint").getD 0
      + (w.lookup "typing").getD 0 + (w.lookup "complexity").getD 0 ≤ sumValues w := by
    have hnd : (["duplication", "lint", "typing", "complexity"] : List String).Nodup := by
      decide
    have := sum_lookups_le w ["duplication", "lint", "typing", "complexity"] hnd hw
    simp only [List.map_cons, List.map_nil, List.sum_cons, List.sum_nil] at this
    linarith
  have hden : (0 : ℚ) < max (1 / 1000000) (sumValues w) :=
    lt_of_lt_of_le (by norm_num) (le_max_left _ _)
  have hdenge : sumValues w ≤ max (1 / 1000000) (sumValues w) := le_max_right _ _
  have hnum0 : 0 ≤ (1 - g.duplication_ratio) * (w.lookup "duplication").getD 0 * 100
      + g.lint_weighted_score * (w.lookup "lint").getD 0
      + g.typing_score * (w.lookup "typing").getD 0
      + g.complexity_score * (w.lookup "complexity").getD 0 := by
    have t1 : 0 ≤ (1 - g.duplication_ratio) * (w.lookup "duplication").getD 0 * 100 := by
      apply mul_nonneg (mul_nonneg (by linarith) hwd) (by norm_num)
    have t2 : 0 ≤ g.lint_weighted_score * (w.lookup "lint").getD 0 := mul_nonneg hl0 hwl
    have t3 : 0 ≤ g.typing_score * (w.lookup "typing").getD 0 := mul_nonneg ht0 hwt
    have t4 : 0 ≤ g.complexity_score * (w.lookup "complexity").getD 0 := mul_nonneg hc0 hwc
    linarith
  have hnum1 : (1 - g.duplication_ratio) * (w.lookup "duplication").getD 0 * 100
      + g.lint_weighted_score * (w.lookup "lint").getD 0
      + g.typing_score * (w.lookup "typing").getD 0
      + g.complexity_score * (w.lookup "complexity").getD 0
      ≤ 100 * max (1 / 1000000) (sumValues w) := by
    have t1 : (1 - g.duplication_ratio) * (w.lookup "duplication").getD 0 * 100
        ≤ 100 * (w.lookup "duplication").getD 0 := by nlinarith
    have t2 : g.lint_weighted_score * (w.lookup "lint").getD 0
        ≤ 100 * (w.lookup "lint").getD 0 := by nlinarith
    have t3 : g.typing_score * (w.lookup "typing").getD 0
        ≤ 100 * (w.lookup "typing").getD 0 := by nlinarith
    have t4 : g.complexity_score * (w.lookup "complexity").getD 0
        ≤ 100 * (w.lookup "complexity").getD 0 := by nlinarith
    nlinarith
  unfold weightedGrade
  constructor
  · exact div_nonneg hnum0 (le_of_lt hden)
  · rw [div_le_iff hden]
    linarith

/-- Duplication ratio bounds (unconditional): every computed ratio is in
`[0, 1]`. -/
theorem computeRatios_bounds (fps : List (String × List ℕ)) :
    ∀ pr ∈ computeRatios fps, 0 ≤ pr.2 ∧ pr.2 ≤ 1 := by
  intro pr hpr
  unfold computeRatios at hpr
  rcases List.mem_map.mp hpr with ⟨pf, _, hpe⟩
  by_cases he : pf.2 = []
  · rw [if_pos he] at hpe
    rw [← hpe]
    norm_num
  · rw [if_neg he] at hpe
    rw [← hpe]
    simp only
    have hq : (0 : ℚ) ≤ ((fps.foldl
        (fun acc pg => if pg.1 = pf.1 then acc
          else acc + ((pf.2.dedup.filter (fun v => pg.2.contains v)).length)) 0 : ℕ) : ℚ)
        / ((max 1 pf.2.dedup.length : ℕ) : ℚ) := by positivity
    exact ⟨le_min (by norm_num) hq, min_le_left _ _⟩

/-- Base confidence bounds: `min(1, log1p(loc)/log1p(300))` times the parse
factor is in `[0, 1]`. -/
theorem baseConf_bounds (loc : ℕ) (parseOk : Bool) :
    0 ≤ baseConf loc parseOk ∧ baseConf loc parseOk ≤ 1 := by
  unfold baseConf
  have hlog301 : (0 : ℝ) < Real.log (1 + 300) := Real.log_pos (by norm_num)
  have hlognum : (0 : ℝ) ≤ Real.log (1 + (loc : ℝ)) := by
    apply Real.log_nonneg
    have : (0 : ℝ) ≤ (loc : ℝ) := by positivity
    linarith
  have hr : (0 : ℝ) ≤ Real.log (1 + (loc : ℝ)) / Real.log (1 + 300) :=
    div_nonneg hlognum (le_of_lt hlog301)
  have hmin0 : (0 : ℝ) ≤ min 1 (Real.log (1 + (loc : ℝ)) / Real.log (1 + 300)) :=
    le_min (by norm_num) hr
  have hmin1 : min 1 (Real.log (1 + (loc : ℝ)) / Real.log (1 + 300)) ≤ 1 := min_le_left _ _
  have hfac0 : (0 : ℝ) ≤ (if parseOk then (1 : ℝ) else 0.6) := by
    cases parseOk <;> norm_num
  have hfac1 : (if parseOk then (1 : ℝ) else 0.6) ≤ 1 := by
    cases parseOk <;> norm_num
  exact ⟨mul_nonneg hmin0 hfac0, mul_le_one₀ hmin1 hfac0 hfac1⟩

/-- All five per-file confidences are in `[0, 1]`. -/
theorem fileConf_bounds (loc : ℕ) (parseOk dupSuccess lintDegraded typingDegraded : Bool) :
    (0 ≤ (fileConf loc parseOk dupSuccess lintDegraded typingDegraded).duplication
      ∧ (fileConf loc parseOk dupSuccess lintDegraded typingDegraded).duplication ≤ 1)
    ∧ (0 ≤ (fileConf loc parseOk dupSuccess lintDegraded typingDegraded).lint
      ∧ (fileConf loc parseOk dupSuccess lintDegraded typingDegraded).lint ≤ 1)
    ∧ (0 ≤ (fileConf loc parseOk dupSuccess lintDegraded typingDegraded).typing
      ∧ (fileConf loc parseOk dupSuccess lintDegraded typingDegraded).typing ≤ 1)
    ∧ (0 ≤ (fileConf loc parseOk dupSuccess lintDegraded typingDegraded).complexity
      ∧ (fileConf loc parseOk dupSuccess lintDegraded typingDegraded).complexity ≤ 1)
    ∧ (0 ≤ (fileConf loc parseOk dupSuccess lintDegraded typingDegraded).overall
      ∧ (fileConf loc parseOk dupSuccess lintDegraded typingDegraded).overall ≤ 1) := by
  obtain ⟨hb0, hb1⟩ := baseConf_bounds loc parseOk
  unfold fileConf
  set base := baseConf loc parseOk with hbase
  have hfac : ∀ (b : Bool) (x y : ℝ), 0 ≤ x → x ≤ 1 → 0 ≤ y → y ≤ 1 →
      (0 ≤ base * (if b then x else y) ∧ base * (if b then x else y) ≤ 1) := by
    intro b x y hx0 hx1 hy0 hy1
    cases b with
    | true =>
        simp only [if_pos rfl]
        exact ⟨mul_nonneg hb0 hx0, mul_le_one₀ hb1 hx0 hx1⟩
    | false =>
        simp only [if_neg Bool.false_ne_true]
        exact ⟨mul_nonneg hb0 hy0, mul_le_one₀ hb1 hy0 hy1⟩
  have hd := hfac dupSuccess 1 0.5 (by norm_num) (by norm_num) (by norm_num) (by norm_num)
  have hl := hfac lintDegraded 0.4 1 (by norm_num) (by norm_num) (by norm_num) (by norm_num)
  have ht := hfac typingDegraded 0.4 1 (by norm_num) (by norm_num) (by norm_num) (by norm_num)
  have hc := hfac parseOk 1 0.5 (by norm_num) (by norm_num) (by norm_num) (by norm_num)
  refine ⟨hd, hl, ht, hc, ?_, min_le_left _ _⟩
  apply le_min (by norm_num)
  have := hd.1
  have := hl.1
  have := ht.1
  have := hc.1
  linarith

/-- The role factor is nonnegative when the role weights are nonnegative. -/
theorem roleFactor_nonneg (roleWeights : List (String × ℚ)) (role : String) (loc : ℕ)
    (h : ∀ p ∈ roleWeights, 0 ≤ p.2) : 0 ≤ roleFactor roleWeights role loc := by
  unfold roleFactor
  have hdef : 0 ≤ (roleWeights.lookup "default").getD 1 :=
    lookup_getD_nonneg roleWeights _ 1 (by norm_num) h
  have hrole : 0 ≤ (roleWeights.lookup role).getD ((roleWeights.lookup "default").getD 1) :=
    lookup_getD_nonneg roleWeights _ _ hdef h
  positivity

/-- One aggregated project metric: `0` under Python float truthiness when
the weight total is zero, otherwise the quotient by
`max(1e-6, weight_total)`.  It lands in `[0, 100]` whenever each per-file
numerator `g f` satisfies `0 ≤ g f ≤ 100 · factor f` for nonnegative
factors. -/
theorem aggregate_out_bounds (files : List FileAgg) (factor : FileAgg → ℚ) (g : FileAgg → ℚ)
    (hfac : ∀ f ∈ files, 0 ≤ factor f)
    (hg : ∀ f ∈ files, 0 ≤ g f ∧ g f ≤ 100 * factor f) :
    0 ≤ (if (files.map factor).sum = 0 then (0 : ℚ)
        else (files.map g).sum / max (1 / 1000000) ((files.map factor).sum))
    ∧ (if (files.map factor).sum = 0 then (0 : ℚ)
        else (files.map g).sum / max (1 / 1000000) ((files.map factor).sum)) ≤ 100 := by
  by_cases hz : (files.map factor).sum = 0
  · rw [if_pos hz]
    norm_num
  · rw [if_neg hz]
    have hden : (0 : ℚ) < max (1 / 1000000) ((files.map factor).sum) :=
      lt_of_lt_of_le (by norm_num) (le_max_left _ _)
    have hnum0 : 0 ≤ (files.map g).sum := by
      apply List.sum_nonneg
      intro x hx
      rcases List.mem_map.mp hx with ⟨f, hfm, hfe⟩
      rw [← hfe]
      exact (hg f hfm).1
    have hnum1 : (files.map g).sum ≤ 100 * (files.map factor).sum := by
      have h1 : (files.map g).sum ≤ (files.map fun f => 100 * factor f).sum := by
        apply List.sum_le_sum
        intro f hfm
        exact (hg f hfm).2
      rw [List.sum_map_mul_left] at h1
      simpa using h1
    refine ⟨div_nonneg hnum0 (le_of_lt hden), ?_⟩
    rw [div_le_iff₀ hden]
    have h2 := le_max_right ((1 : ℚ) / 1000000) ((files.map factor).sum)
    linarith

/-- Project aggregation bounds: with nonnegative role weights and in-range
per-file metrics, all five summary metrics land in `[0, 100]`. -/
theorem aggregateProject_bounds (files : List FileAgg) (roleWeights : List (String × ℚ))
    (hrw : ∀ p ∈ roleWeights, 0 ≤ p.2)
    (hf : ∀ f ∈ files, (0 ≤ f.duplication_ratio ∧ f.duplication_ratio ≤ 1)
      ∧ (0 ≤ f.lint_weighted_score ∧ f.lint_weighted_score ≤ 100)
      ∧ (0 ≤ f.typing_score ∧ f.typing_score ≤ 100)
      ∧ (0 ≤ f.complexity_score ∧ f.complexity_score ≤ 100)
      ∧ (0 ≤ f.grade ∧ f.grade ≤ 100)) :
    ∀ kv ∈ aggregateProject files roleWeights, 0 ≤ kv.2 ∧ kv.2 ≤ 100 := by
  intro kv hkv
  have hfac : ∀ f ∈ files, 0 ≤ roleFactor roleWeights f.role f.loc :=
    fun f _ => roleFactor_nonneg roleWeights f.role f.loc hrw
  unfold aggregateProject at hkv
  simp only [List.mem_cons, List.not_mem_nil, or_false] at hkv
  rcases hkv with h | h | h | h | h
  · rw [h]
    exact aggregate_out_bounds files _ _ hfac (fun f hfm => by
      obtain ⟨⟨a, b⟩, _, _, _, _⟩ := hf f hfm
      have hc := hfac f hfm
      constructor <;> nlinarith)
  · rw [h]
    exact aggregate_out_bounds files _ _ hfac (fun f hfm => by
      obtain ⟨_, ⟨a, b⟩, _, _, _⟩ := hf f hfm
      have hc := hfac f hfm
      constructor <;> nlinarith)
  · rw [h]
    exact aggregate_out_bounds files _ _ hfac (fun f hfm => by
      obtain ⟨_, _, ⟨a, b⟩, _, _⟩ := hf f hfm
      have hc := hfac f hfm
      constructor <;> nlinarith)
  · rw [h]
    exact aggregate_out_bounds files _ _ hfac (fun f hfm => by
      obtain ⟨_, _, _, ⟨a, b⟩, _⟩ := hf f hfm
      have hc := hfac f hfm
      constructor <;> nlinarith)
  · rw [h]
    exact aggregate_out_bounds files _ _ hfac (fun f hfm => by
      obtain ⟨_, _, _, _, a, b⟩ := hf f hfm
      have hc := hfac f hfm
      constructor <;> nlinarith)

/-- Arithmetic-mean confidence bounds: the mean of values in `[0, 1]` is in
`[0, 1]` (and the empty-file fallback is `0`). -/
theorem projMeanConf_bounds (cs : List ℝ) (h : ∀ c ∈ cs, 0 ≤ c ∧ c ≤ 1) :
    0 ≤ projMeanConf cs ∧ projMeanConf cs ≤ 1 := by
  unfold projMeanConf
  by_cases hz : cs = []
  · rw [if_pos hz]
    norm_num
  · rw [if_neg hz]
    have hlen : (0 : ℝ) < (cs.length : ℝ) := by
      have : 0 < cs.length := List.length_pos.mpr hz
      exact_mod_cast this
    have hsum0 : 0 ≤ cs.sum := List.sum_nonneg (fun c hc => (h c hc).1)
    have hsum1 : cs.sum ≤ (cs.length : ℝ) := by
      have h1 : cs.sum ≤ (cs.map fun _ => (1 : ℝ)).sum := by
        have : cs.sum = (cs.map id).sum := by simp
        rw [this]
        apply List.sum_le_sum
        intro c hc
        exact (h c hc).2
      simpa using h1
    constructor
    · exact div_nonneg hsum0 (le_of_lt hlen)
    · rw [div_le_one hlen]
      exact hsum1

/-- C8 (amended): for configurations with nonnegative pylint-category,
metric and role weights and `0 ≤ max_score_at_0 ≤ 100`, every reported
quantity is in range: lint weighted score, typing score, complexity score
and per-file grade in `[0, 100]`; duplication ratios in `[0, 1]`; all five
per-file confidences, and the project mean confidences, in `[0, 1]`; and
all five project summary metrics in `[0, 100]` (given in-range per-file
inputs for the grade and the aggregation). -/
theorem C8_bounds_amended
    (lintW : List (String × ℚ)) (catCounts : List (String × ℕ))
    (maxScore zeroAt : ℚ) (terr tloc : ℕ)
    (target : ℚ) (hardCap : ℤ) (craw cloc : ℕ)
    (g : GradeInputs) (metricW : List (String × ℚ))
    (fps : List (String × List ℕ))
    (bloc : ℕ) (parseOk dupSuccess lintDeg typDeg : Bool)
    (files : List FileAgg) (roleW : List (String × ℚ))
    (cs : List ℝ)
    (hlw : ∀ p ∈ lintW, 0 ≤ p.2)
    (hms0 : 0 ≤ maxScore) (hms1 : maxScore ≤ 100)
    (hmw : ∀ p ∈ metricW, 0 ≤ p.2)
    (hgd0 : 0 ≤ g.duplication_ratio) (hgd1 : g.duplication_ratio ≤ 1)
    (hgl0 : 0 ≤ g.lint_weighted_score) (hgl1 : g.lint_weighted_score ≤ 100)
    (hgt0 : 0 ≤ g.typing_score) (hgt1 : g.typing_score ≤ 100)
    (hgc0 : 0 ≤ g.complexity_score) (hgc1 : g.complexity_score ≤ 100)
    (hrw : ∀ p ∈ roleW, 0 ≤ p.2)
    (hfiles : ∀ f ∈ files, (0 ≤ f.duplication_ratio ∧ f.duplication_ratio ≤ 1)
      ∧ (0 ≤ f.lint_weighted_score ∧ f.lint_weighted_score ≤ 100)
      ∧ (0 ≤ f.typing_score ∧ f.typing_score ≤ 100)
      ∧ (0 ≤ f.complexity_score ∧ f.complexity_score ≤ 100)
      ∧ (0 ≤ f.grade ∧ f.grade ≤ 100))
    (hcs : ∀ c ∈ cs, 0 ≤ c ∧ c ≤ 1) :
    (0 ≤ lintWeightedScore lintW catCounts ∧ lintWeightedScore lintW catCounts ≤ 100)
    ∧ (0 ≤ typingScore maxScore zeroAt terr tloc ∧ typingScore maxScore zeroAt terr tloc ≤ 100)
    ∧ (0 ≤ complexityScore target hardCap craw cloc
        ∧ complexityScore target hardCap craw cloc ≤ 100)
    ∧ (0 ≤ weightedGrade g metricW ∧ weightedGrade g metricW ≤ 100)
    ∧ (∀ pr ∈ computeRatios fps, 0 ≤ pr.2 ∧ pr.2 ≤ 1)
    ∧ ((0 ≤ (fileConf bloc parseOk dupSuccess lintDeg typDeg).duplication
        ∧ (fileConf bloc parseOk dupSuccess lintDeg typDeg).duplication ≤ 1)
      ∧ (0 ≤ (fileConf bloc parseOk dupSuccess lintDeg typDeg).lint
        ∧ (fileConf bloc parseOk dupSuccess lintDeg typDeg).lint ≤ 1)
      ∧ (0 ≤ (fileConf bloc parseOk dupSuccess lintDeg typDeg).typing
        ∧ (fileConf bloc parseOk dupSuccess lintDeg typDeg).typing ≤ 1)
      ∧ (0 ≤ (fileConf bloc parseOk dupSuccess lintDeg typDeg).complexity
        ∧ (fileConf bloc parseOk dupSuccess lintDeg typDeg).complexity ≤ 1)
      ∧ (0 ≤ (fileConf bloc parseOk dupSuccess lintDeg typDeg).overall
        ∧ (fileConf bloc parseOk dupSuccess lintDeg typDeg).overall ≤ 1))
    ∧ (∀ kv ∈ aggregateProject files roleW, 0 ≤ kv.2 ∧ kv.2 ≤ 100)
    ∧ (0 ≤ projMeanConf cs ∧ projMeanConf cs ≤ 1) :=
  ⟨lintWeightedScore_bounds lintW catCounts hlw,
   typingScore_bounds maxScore zeroAt terr tloc hms0 hms1,
   complexityScore_bounds target hardCap craw cloc,
   weightedGrade_bounds g metricW hmw hgd0 hgd1 hgl0 hgl1 hgt0 hgt1 hgc0 hgc1,
   computeRatios_bounds fps,
   fileConf_bounds bloc parseOk dupSuccess lintDeg typDeg,
   aggregateProject_bounds files roleW hrw hfiles,
   projMeanConf_bounds cs hcs⟩

/-- C8 witness: the amended bound theorem applied at a concrete
default-configuration-shaped input. -/
theorem C8_witness :
    (0 ≤ lintWeightedScore [("C", 1/4), ("W", 1/2), ("R", 2/5), ("E", 1)] [("C", 2), ("E", 1)]
      ∧ lintWeightedScore [("C", 1/4), ("W", 1/2), ("R", 2/5), ("E", 1)] [("C", 2), ("E", 1)] ≤ 100)
    ∧ (0 ≤ typingScore 100 20 1 10 ∧ typingScore 100 20 1 10 ≤ 100)
    ∧ (0 ≤ complexityScore (1/4) 50 3 10 ∧ complexityScore (1/4) 50 3 10 ≤ 100)
    ∧ (0 ≤ weightedGrade ⟨1/2, 90, 80, 70⟩
          [("duplication", 1/4), ("lint", 3/10), ("typing", 1/5), ("complexity", 1/4)]
      ∧ weightedGrade ⟨1/2, 90, 80, 70⟩
          [("duplication", 1/4), ("lint", 3/10), ("typing", 1/5), ("complexity", 1/4)] ≤ 100)
    ∧ (∀ pr ∈ computeRatios [("a.py", [1])], 0 ≤ pr.2 ∧ pr.2 ≤ 1)
    ∧ ((0 ≤ (fileConf 10 true true false false).duplication
        ∧ (fileConf 10 true true false false).duplication ≤ 1)
      ∧ (0 ≤ (fileConf 10 true true false false).lint
        ∧ (fileConf 10 true true false false).lint ≤ 1)
      ∧ (0 ≤ (fileConf 10 true true false false).typing
        ∧ (fileConf 10 true true false false).typing ≤ 1)
      ∧ (0 ≤ (fileConf 10 true true false false).complexity
        ∧ (fileConf 10 true true false false).complexity ≤ 1)
      ∧ (0 ≤ (fileConf 10 true true false false).overall
        ∧ (fileConf 10 true true false false).overall ≤ 1))
    ∧ (∀ kv ∈ aggregateProject [⟨"default", 10, 1/2, 90, 80, 70, 75⟩] [("default", 1)],
        0 ≤ kv.2 ∧ kv.2 ≤ 100)
    ∧ (0 ≤ projMeanConf [1/2] ∧ projMeanConf [1/2] ≤ 1) :=
  C8_bounds_amended
    [("C", 1/4), ("W", 1/2), ("R", 2/5), ("E", 1)] [("C", 2), ("E", 1)]
    100 20 1 10 (1/4) 50 3 10 ⟨1/2, 90, 80, 70⟩
    [("duplication", 1/4), ("lint", 3/10), ("typing", 1/5), ("complexity", 1/4)]
    [("a.py", [1])] 10 true true false false
    [⟨"default", 10, 1/2, 90, 80, 70, 75⟩] [("default", 1)] [1/2]
    (by intro p hp; simp at hp; rcases hp with h | h | h | h <;> rw [h] <;> norm_num)
    (by norm_num) (by norm_num)
    (by intro p hp; simp at hp; rcases hp with h | h | h | h <;> rw [h] <;> norm_num)
    (by norm_num) (by norm_num) (by norm_num) (by norm_num)
    (by norm_num) (by norm_num) (by norm_num) (by norm_num)
    (by intro p hp; simp at hp; rw [hp]; norm_num)
    (by intro f hf; simp at hf; rw [hf]; norm_num)
    (by intro c hc; simp at hc; rw [hc]; norm_num)

/-! ## Claim C7: degradation isolation

`Runner.run` (src/cq/runner.py, lines 60-118) builds one `FileReport` per
`loc_map` entry and accumulates `degraded_metrics`.  The adapters' degraded
results always carry *empty* score dictionaries (lint.py lines 42, 47, 54;
typing.py lines 51, 56), modelled by the `...DegradedResult` constructors.
`degraded_metrics` is only populated inside the per-file loop, so it stays
empty for a scan with no files. -/

/-- The fields of `LintResult` that the runner reads. -/
structure LintResultM where
  weighted_scores : List (String × ℚ)
  degraded : Bool
  missing_reason : Option String

/-- The fields of `TypingResult` that the runner reads. -/
structure TypingResultM where
  scores : List (String × ℚ)
  degraded : Bool
  missing_reason : Option String

/-- Every degraded return of `LintAnalyzer.analyze` (lint.py lines 39-54):
empty scores, `degraded=True`, a reason string. -/
def lintDegradedResult (reason : String) : LintResultM := ⟨[], true, some reason⟩

/-- Every degraded return of `TypingAnalyzer.analyze` (typing.py lines
48-56): empty scores, `degraded=True`, a reason string. -/
def typingDegradedResult (reason : String) : TypingResultM := ⟨[], true, some reason⟩

/-- Python `x or default` for an optional string (`None` and `""` are both
falsy), as in `lint.missing_reason or "pylint degraded"` (runner.py lines
70 and 76). -/
def pyOrDefault (o : Option String) (d : String) : String :=
  match o with
  | some r => if r = "" then d else r
  | none => d

/-- The per-`FileReport` data of runner.py lines 63-118 that claim C7
reads. -/
structure FileReportM where
  path : String
  lintScore : ℚ
  typingScore : ℚ
  conf : FileConf
  missingReasons : List String

/-- One iteration of the reporting loop (runner.py lines 63-118) for the
file `rel` with `loc` lines: scores are looked up under the joined path
with neutral default `100.0`, confidences combine the base confidence with
the degradation/parse factors, and `missing_reasons` collects the lint
reason then the typing reason. -/
noncomputable def buildFileReport (root : String) (lint : LintResultM)
    (typing : TypingResultM) (parseOk dupSuccess : Bool) (rel : String) (loc : ℕ) :
    FileReportM :=
  { path := rel
  , lintScore := (lint.weighted_scores.lookup (pyJoin root rel)).getD 100
  , typingScore := (typing.scores.lookup (pyJoin root rel)).getD 100
  , conf := fileConf loc parseOk dupSuccess lint.degraded typing.degraded
  , missingReasons :=
      (if lint.degraded then [pyOrDefault lint.missing_reason "pylint degraded"] else [])
      ++ (if typing.degraded then [pyOrDefault typing.missing_reason "mypy degraded"] else []) }

/-- `degraded_metrics` accumulated over the per-file loop (runner.py lines
62, 68-69, 74-75). -/
def degradedMetrics (lint : LintResultM) (typing : TypingResultM)
    (locMap : List (String × ℕ)) : Finset String :=
  locMap.foldl (fun s _ =>
    let s1 := if lint.degraded then insert "lint" s else s
    if typing.degraded then insert "typing" s1 else s1) ∅

/-- `sorted(degraded_metrics)` (runner.py line 141). -/
def degradedList (lint : LintResultM) (typing : TypingResultM)
    (locMap : List (String × ℕ)) : List String :=
  (degradedMetrics lint typing locMap).sort (· ≤ ·)

/-- C7 counterexample: in a scan with *no* files whose lint adapter is
degraded (and typing is not), the degraded list is `[]`, not `["lint"]`:
`degraded_metrics` is only populated inside the per-file loop. -/
theorem C7_counterexample :
    ¬ (degradedList (lintDegradedResult "boom") ⟨[], false, none⟩ [] = ["lint"]) := by
  intro h
  simp [degradedList, degradedMetrics] at h

/-- With the lint adapter degraded and typing not, the degraded-metrics
fold inserts exactly `"lint"`, once per file. -/
theorem degradedMetrics_fold (lint : LintResultM) (typing : TypingResultM)
    (hl : lint.degraded = true) (ht : typing.degraded = false) :
    ∀ (l : List (String × ℕ)) (s : Finset String),
    l.foldl (fun s _ =>
      let s1 := if lint.degraded then insert "lint" s else s
      if typing.degraded then insert "typing" s1 else s1) s
      = if l = [] then s else insert "lint" s := by
  intro l
  induction l with
  | nil => intro s; rfl
  | cons x rest ih =>
      intro s
      rw [List.foldl_cons, ih]
      by_cases hr : rest = []
      · simp [hr, hl, ht]
      · simp [hr, hl, ht, Finset.insert_idem]

/-- `degraded_metrics` for a lint-degraded, typing-healthy scan. -/
theorem degradedMetrics_eq (lint : LintResultM) (typing : TypingResultM)
    (hl : lint.degraded = true) (ht : typing.degraded = false)
    (locMap : List (String × ℕ)) :
    degradedMetrics lint typing locMap
      = if locMap = [] then (∅ : Finset String) else {"lint"} := by
  unfold degradedMetrics
  rw [degradedMetrics_fold lint typing hl ht locMap ∅]
  simp

/-- C7 (amended): in any scan with at least one file where the lint adapter
is degraded and the typing adapter is not: the degraded list is exactly
`["lint"]`; every file's lint score defaults to the neutral `100`; the lint
confidence is the base confidence times `0.4` while the typing confidence
keeps factor `1` and duplication/complexity keep their parse factors;
every file's `missing_reasons` is non-empty; and (for arbitrary adapter
outcomes) `missing_reasons` is non-empty iff the lint or typing adapter
was degraded. -/
theorem C7_degradation_isolation (reason : String) (typing : TypingResultM)
    (htyp : typing.degraded = false) (locMap : List (String × ℕ)) (hne : locMap ≠ [])
    (root : String) (rel : String) (loc : ℕ) (parseOk dupSuccess : Bool) :
    degradedList (lintDegradedResult reason) typing locMap = ["lint"]
    ∧ (buildFileReport root (lintDegradedResult reason) typing parseOk dupSuccess rel loc).lintScore
        = 100
    ∧ (buildFileReport root (lintDegradedResult reason) typing parseOk dupSuccess rel loc).conf.lint
        = baseConf loc parseOk * 0.4
    ∧ (buildFileReport root (lintDegradedResult reason) typing parseOk dupSuccess rel loc).conf.typing
        = baseConf loc parseOk * 1
    ∧ (buildFileReport root (lintDegradedResult reason) typing parseOk dupSuccess rel loc).conf.duplication
        = baseConf loc parseOk * (if dupSuccess then 1 else 0.5)
    ∧ (buildFileReport root (lintDegradedResult reason) typing parseOk dupSuccess rel loc).conf.complexity
        = baseConf loc parseOk * (if parseOk then 1 else 0.5)
    ∧ (buildFileReport root (lintDegradedResult reason) typing parseOk dupSuccess rel loc).missingReasons
        ≠ []
    ∧ (∀ (lint2 : LintResultM) (typing2 : TypingResultM),
        (buildFileReport root lint2 typing2 parseOk dupSuccess rel loc).missingReasons ≠ []
          ↔ (lint2.degraded = true ∨ typing2.degraded = true)) := by
  refine ⟨?_, ?_, ?_, ?_, ?_, ?_, ?_, ?_⟩
  · unfold degradedList
    rw [degradedMetrics_eq (lintDegradedResult reason) typing rfl htyp locMap, if_neg hne]
    exact Finset.sort_singleton _ _
  · simp [buildFileReport, lintDegradedResult]
  · simp [buildFileReport, fileConf, lintDegradedResult]
  · simp [buildFileReport, fileConf, htyp]
  · simp [buildFileReport, fileConf]
  · simp [buildFileReport, fileConf]
  · simp [buildFileReport, lintDegradedResult]
  · intro lint2 typing2
    cases hl : lint2.degraded <;> cases ht : typing2.degraded <;>
      simp [buildFileReport, hl, ht]

/-- C7 witness: the amended degradation theorem applied to a one-file scan
with a lint failure reason `boom` and a healthy typing adapter. -/
theorem C7_witness :
    degradedList (lintDegradedResult "boom") ⟨[], false, none⟩ [("a.py", 3)] = ["lint"]
    ∧ (buildFileReport "/r" (lintDegradedResult "boom") ⟨[], false, none⟩ true true "a.py" 3).lintScore
        = 100
    ∧ (buildFileReport "/r" (lintDegradedResult "boom") ⟨[], false, none⟩ true true "a.py" 3).conf.lint
        = baseConf 3 true * 0.4
    ∧ (buildFileReport "/r" (lintDegradedResult "boom") ⟨[], false, none⟩ true true "a.py" 3).conf.typing
        = baseConf 3 true * 1
    ∧ (buildFileReport "/r" (lintDegradedResult "boom") ⟨[], false, none⟩ true true "a.py" 3).conf.duplication
        = baseConf 3 true * (if true then 1 else 0.5)
    ∧ (buildFileReport "/r" (lintDegradedResult "boom") ⟨[], false, none⟩ true true "a.py" 3).conf.complexity
        = baseConf 3 true * (if true then 1 else 0.5)
    ∧ (buildFileReport "/r" (lintDegradedResult "boom") ⟨[], false, none⟩ true true "a.py" 3).missingReasons
        ≠ []
    ∧ (∀ (lint2 : LintResultM) (typing2 : TypingResultM),
        (buildFileReport "/r" lint2 typing2 true true "a.py" 3).missingReasons ≠ []
          ↔ (lint2.degraded = true ∨ typing2.degraded = true)) :=
  C7_degradation_isolation "boom" ⟨[], false, none⟩ rfl [("a.py", 3)] (by simp) "/r" "a.py" 3
    true true

/-! ## Claim C6: cognitive complexity

`ComplexityAnalyzer._compute` (src/cq/analyzers/complexity.py, lines
56-133) walks the AST with a visitor holding a counter and a nesting
stack; `enter()` adds `1 + len(stack)` and pushes a frame.

The Python AST is embedded as the fragment `PyExpr`/`PyStmt` below
(if/while/for/return/expression statements, function definitions and
`pass`; names, constants, boolean-operator chains and binary operators) —
the constructs the claim and its tests exercise.  The visitor's behaviour,
per source line:

* `visit_If` (lines 70-83): `enter()`; then scan `orelse` and, for each
  member that is an `ast.If`, `enter()` + `generic_visit` on it +
  `leave()` (`elifScanC`, at nesting `d+2` for the elif's children); then
  `generic_visit(node.test)` — which visits only the *children* of the
  test, so a top-level `BoolOp` in an `if` test is not counted
  (`exprChildrenC`); then the body members (`stmtListC (d+1)`); then the
  non-`If` members of `orelse` (`orelseRestC (d+1)`).
* `visit_For`/`visit_While` (lines 85-100): `enter()`; `generic_visit` of
  the whole node, i.e. test/target/iter via `visit` and both stmt lists at
  `d+1`.
* `visit_BoolOp` (lines 121-124): `len(values) - 1`, then the operands.
* `visit_Return` (lines 126-129): `1`, plus the returned expression.
* `FunctionDef` has no visitor: `generic_visit` at the same depth.
-/

/-- Expression fragment of the Python AST used by the complexity engine. -/
inductive PyExpr where
  | nameE (id : String)
  | constE
  | boolOp (values : List PyExpr)
  | binOp (left right : PyExpr)

/-- Statement fragment of the Python AST used by the complexity engine. -/
inductive PyStmt where
  | ifS (test : PyExpr) (body orelse : List PyStmt)
  | whileS (test : PyExpr) (body orelse : List PyStmt)
  | forS (target iter : PyExpr) (body orelse : List PyStmt)
  | returnS (value : Option PyExpr)
  | exprS (value : PyExpr)
  | functionDefS (name : String) (body : List PyStmt)
  | passS

mutual
/-- Complexity contributed by visiting an expression (`visit_BoolOp` adds
`max(0, len(values) - 1)`, other expressions only recurse). -/
def exprC : PyExpr → ℕ
  | .nameE _ => 0
  | .constE => 0
  | .boolOp vals => (vals.length - 1) + exprListC vals
  | .binOp a b => exprC a + exprC b

/-- Complexity of a list of visited expressions. -/
def exprListC : List PyExpr → ℕ
  | [] => 0
  | e :: rest => exprC e + exprListC rest
end

/-- Complexity contributed by `generic_visit` on an expression node: only
its children are visited, so a top-level `BoolOp` bonus is skipped (this is
what `visit_If` does to `node.test`, line 77). -/
def exprChildrenC : PyExpr → ℕ
  | .nameE _ => 0
  | .constE => 0
  | .boolOp vals => exprListC vals
  | .binOp a b => exprC a + exprC b

mutual
/-- Complexity contributed by visiting one statement at nesting depth `d`
(`d = len(stack)` on entry). -/
def stmtC : ℕ → PyStmt → ℕ
  | d, .ifS t b o =>
      (1 + d) + elifScanC d o + exprChildrenC t + stmtListC (d + 1) b + orelseRestC (d + 1) o
  | d, .whileS t b o => (1 + d) + exprC t + stmtListC (d + 1) b + stmtListC (d + 1) o
  | d, .forS tg it b o =>
      (1 + d) + exprC tg + exprC it + stmtListC (d + 1) b + stmtListC (d + 1) o
  | _, .returnS v => 1 + (match v with | some e => exprC e | none => 0)
  | _, .exprS e => exprC e
  | d, .functionDefS _ body => stmtListC d body
  | _, .passS => 0

/-- The `for idx, test in enumerate(node.orelse)` scan of `visit_If`
(lines 72-76): each `ast.If` member is entered (`1 + (d+1)`) and
`generic_visit`ed, so its test, body and orelse children are visited at
depth `d+2`. -/
def elifScanC : ℕ → List PyStmt → ℕ
  | _, [] => 0
  | d, .ifS t2 b2 o2 :: rest =>
      ((1 + (d + 1)) + (exprC t2 + stmtListC (d + 2) b2 + stmtListC (d + 2) o2))
        + elifScanC d rest
  | d, _ :: rest => elifScanC d rest

/-- The `for child in node.orelse: if not isinstance(child, ast.If)` loop
of `visit_If` (lines 80-82): non-`If` members visited at the given depth. -/
def orelseRestC : ℕ → List PyStmt → ℕ
  | _, [] => 0
  | d, .ifS _ _ _ :: rest => orelseRestC d rest
  | d, s :: rest => stmtC d s + orelseRestC d rest

/-- Complexity of a visited statement list. -/
def stmtListC : ℕ → List PyStmt → ℕ
  | _, [] => 0
  | d, s :: rest => stmtC d s + stmtListC d rest
end

/-- `_compute` on a module: the `Module` node has no visitor, so its body
is visited at depth `0`. -/
def moduleC (body : List PyStmt) : ℕ := stmtListC 0 body

/-- Statement-list complexity is additive over append. -/
theorem stmtListC_append (d : ℕ) (l1 l2 : List PyStmt) :
    stmtListC d (l1 ++ l2) = stmtListC d l1 + stmtListC d l2 := by
  induction l1 with
  | nil => simp [stmtListC]
  | cons s rest ih => simp [stmtListC, ih]; omega

/-- The elif scan is additive over append. -/
theorem elifScanC_append (d : ℕ) (l1 l2 : List PyStmt) :
    elifScanC d (l1 ++ l2) = elifScanC d l1 + elifScanC d l2 := by
  induction l1 with
  | nil => simp [elifScanC]
  | cons s rest ih => cases s <;> simp [elifScanC, ih] <;> omega

/-- The non-`If` orelse loop is additive over append. -/
theorem orelseRestC_append (d : ℕ) (l1 l2 : List PyStmt) :
    orelseRestC d (l1 ++ l2) = orelseRestC d l1 + orelseRestC d l2 := by
  induction l1 with
  | nil => simp [orelseRestC]
  | cons s rest ih => cases s <;> simp [orelseRestC, ih] <;> omega

/-- Every `if` statement contributes at least `1 + d` — in particular at
least `1`. -/
theorem stmtC_ifS_pos (d : ℕ) (t : PyExpr) (b o : List PyStmt) :
    0 < stmtC d (.ifS t b o) := by
  simp only [stmtC]
  omega

mutual
/-- Inserting one `if` statement somewhere inside a statement. -/
inductive InsStmt : PyStmt → PyStmt → Prop where
  | ifBody {t b b' o} : InsList b b' → InsStmt (.ifS t b o) (.ifS t b' o)
  | ifElse {t b o o'} : InsList o o' → InsStmt (.ifS t b o) (.ifS t b o')
  | whileBody {t b b' o} : InsList b b' → InsStmt (.whileS t b o) (.whileS t b' o)
  | whileElse {t b o o'} : InsList o o' → InsStmt (.whileS t b o) (.whileS t b o')
  | forBody {tg it b b' o} : InsList b b' → InsStmt (.forS tg it b o) (.forS tg it b' o)
  | forElse {tg it b o o'} : InsList o o' → InsStmt (.forS tg it b o) (.forS tg it b o')
  | funcBody {n b b'} : InsList b b' → InsStmt (.functionDefS n b) (.functionDefS n b')

/-- Inserting one `if` statement somewhere inside a statement list: either
directly at some position, or inside one of the members. -/
inductive InsList : List PyStmt → List PyStmt → Prop where
  | here (pre post : List PyStmt) (t : PyExpr) (b o : List PyStmt) :
      InsList (pre ++ post) (pre ++ .ifS t b o :: post)
  | headStep {s s' l} : InsStmt s s' → InsList (s :: l) (s' :: l)
  | tailStep {s l l'} : InsList l l' → InsList (s :: l) (s :: l')
end

/-! Constructor-wise reduction equations for the orelse helpers (the
catch-all match arms do not always reduce by `simp only [elifScanC]`). -/

theorem elifScanC_while (d : ℕ) (t : PyExpr) (b o l : List PyStmt) :
    elifScanC d (.whileS t b o :: l) = elifScanC d l := rfl

theorem elifScanC_for (d : ℕ) (tg it : PyExpr) (b o l : List PyStmt) :
    elifScanC d (.forS tg it b o :: l) = elifScanC d l := rfl

theorem elifScanC_func (d : ℕ) (n : String) (b : List PyStmt) (l : List PyStmt) :
    elifScanC d (.functionDefS n b :: l) = elifScanC d l := rfl

theorem elifScanC_return (d : ℕ) (v : Option PyExpr) (l : List PyStmt) :
    elifScanC d (.returnS v :: l) = elifScanC d l := rfl

theorem elifScanC_expr (d : ℕ) (e : PyExpr) (l : List PyStmt) :
    elifScanC d (.exprS e :: l) = elifScanC d l := rfl

theorem elifScanC_pass (d : ℕ) (l : List PyStmt) :
    elifScanC d (.passS :: l) = elifScanC d l := rfl

theorem orelseRestC_while (d : ℕ) (t : PyExpr) (b o l : List PyStmt) :
    orelseRestC d (.whileS t b o :: l) = stmtC d (.whileS t b o) + orelseRestC d l := rfl

theorem orelseRestC_for (d : ℕ) (tg it : PyExpr) (b o l : List PyStmt) :
    orelseRestC d (.forS tg it b o :: l) = stmtC d (.forS tg it b o) + orelseRestC d l := rfl

theorem orelseRestC_func (d : ℕ) (n : String) (b : List PyStmt) (l : List PyStmt) :
    orelseRestC d (.functionDefS n b :: l) = stmtC d (.functionDefS n b) + orelseRestC d l := rfl

theorem orelseRestC_return (d : ℕ) (v : Option PyExpr) (l : List PyStmt) :
    orelseRestC d (.returnS v :: l) = stmtC d (.returnS v) + orelseRestC d l := rfl

theorem orelseRestC_expr (d : ℕ) (e : PyExpr) (l : List PyStmt) :
    orelseRestC d (.exprS e :: l) = stmtC d (.exprS e) + orelseRestC d l := rfl

theorem orelseRestC_pass (d : ℕ) (l : List PyStmt) :
    orelseRestC d (.passS :: l) = stmtC d .passS + orelseRestC d l := rfl

mutual
/-- Inserting an `if` strictly increases the complexity of a statement, at
every nesting depth. -/
theorem insStmt_lt : ∀ {s s' : PyStmt}, InsStmt s s' → ∀ d, stmtC d s < stmtC d s'
  | _, _, .ifBody h, d => by
      have hb := insList_lt h (d + 1)
      simp only [stmtC]
      omega
  | _, _, .ifElse h, d => by
      have ho := insList_scan_lt h d
      simp only [stmtC]
      omega
  | _, _, .whileBody h, d => by
      have hb := insList_lt h (d + 1)
      simp only [stmtC]
      omega
  | _, _, .whileElse h, d => by
      have ho := insList_lt h (d + 1)
      simp only [stmtC]
      omega
  | _, _, .forBody h, d => by
      have hb := insList_lt h (d + 1)
      simp only [stmtC]
      omega
  | _, _, .forElse h, d => by
      have ho := insList_lt h (d + 1)
      simp only [stmtC]
      omega
  | _, _, .funcBody h, d => by
      have hb := insList_lt h d
      simp only [stmtC]
      omega

/-- Inserting an `if` strictly increases the complexity of a visited
statement list, at every nesting depth. -/
theorem insList_lt : ∀ {l l' : List PyStmt}, InsList l l' → ∀ d, stmtListC d l < stmtListC d l'
  | _, _, .here pre post t b o, d => by
      rw [stmtListC_append, stmtListC_append]
      have h1 := stmtC_ifS_pos d t b o
      simp only [stmtListC]
      omega
  | _, _, .headStep h, d => by
      have hs := insStmt_lt h d
      simp only [stmtListC]
      omega
  | _, _, .tailStep h, d => by
      have hl := insList_lt h d
      simp only [stmtListC]
      omega

/-- Inserting an `if` strictly increases the combined contribution of an
`if` statement's `orelse` (the elif scan plus the non-`If` loop). -/
theorem insList_scan_lt : ∀ {l l' : List PyStmt}, InsList l l' →
    ∀ d, elifScanC d l + orelseRestC (d + 1) l < elifScanC d l' + orelseRestC (d + 1) l'
  | _, _, .here pre post t b o, d => by
      rw [elifScanC_append, elifScanC_append, orelseRestC_append, orelseRestC_append]
      simp only [elifScanC, orelseRestC]
      omega
  | _, _, .headStep (.ifBody h), d => by
      have hb := insList_lt h (d + 2)
      simp only [elifScanC, orelseRestC]
      omega
  | _, _, .headStep (.ifElse h), d => by
      have ho := insList_lt h (d + 2)
      simp only [elifScanC, orelseRestC]
      omega
  | _, _, .headStep (.whileBody h), d => by
      have hb := insList_lt h (d + 1 + 1)
      rw [elifScanC_while, elifScanC_while, orelseRestC_while, orelseRestC_while]
      simp only [stmtC]
      omega
  | _, _, .headStep (.whileElse h), d => by
      have ho := insList_lt h (d + 1 + 1)
      rw [elifScanC_while, elifScanC_while, orelseRestC_while, orelseRestC_while]
      simp only [stmtC]
      omega
  | _, _, .headStep (.forBody h), d => by
      have hb := insList_lt h (d + 1 + 1)
      rw [elifScanC_for, elifScanC_for, orelseRestC_for, orelseRestC_for]
      simp only [stmtC]
      omega
  | _, _, .headStep (.forElse h), d => by
      have ho := insList_lt h (d + 1 + 1)
      rw [elifScanC_for, elifScanC_for, orelseRestC_for, orelseRestC_for]
      simp only [stmtC]
      omega
  | _, _, .headStep (.funcBody h), d => by
      have hb := insList_lt h (d + 1)
      rw [elifScanC_func, elifScanC_func, orelseRestC_func, orelseRestC_func]
      simp only [stmtC]
      omega
  | _, _, .tailStep h, d => by
      have hl := insList_scan_lt h d
      rename_i s _ _
      cases s <;>
        simp only [elifScanC, orelseRestC, elifScanC_while, elifScanC_for, elifScanC_func,
          elifScanC_return, elifScanC_expr, elifScanC_pass, orelseRestC_while, orelseRestC_for,
          orelseRestC_func, orelseRestC_return, orelseRestC_expr, orelseRestC_pass] <;>
        omega
end

/-- An `if`/`elif` chain: `chainIf [(t1,b1),...,(tn,bn)] els` is
`if t1: b1 elif t2: b2 ... else: els` (each `elif` is an `ast.If` as the
sole member of the previous `orelse`). -/
def chainIf : List (PyExpr × List PyStmt) → List PyStmt → PyStmt
  | [], _ => .passS
  | [(t, b)], els => .ifS t b els
  | (t, b) :: rest, els => .ifS t b [chainIf rest els]

/-- An `if`/`elif` chain with `n` branches has raw complexity at least `n`,
at any depth. -/
theorem chain_ge : ∀ (branches : List (PyExpr × List PyStmt)) (els : List PyStmt) (d : ℕ),
    branches ≠ [] → branches.length ≤ stmtC d (chainIf branches els)
  | [], _, _, h => absurd rfl h
  | [(t, b)], els, d, _ => by
      simp only [chainIf, stmtC, List.length_cons, List.length_nil]
      omega
  | (t1, b1) :: (t2, b2) :: rest, els, d, _ => by
      cases hr : rest with
      | nil =>
          subst hr
          simp only [chainIf, stmtC, elifScanC, orelseRestC, stmtListC,
            List.length_cons, List.length_nil]
          omega
      | cons p3 rest3 =>
          subst hr
          obtain ⟨t3, b3⟩ := p3
          have ih := chain_ge ((t3, b3) :: rest3) els (d + 2) (List.cons_ne_nil _ _)
          simp only [List.length_cons] at ih
          simp only [chainIf, stmtC, elifScanC, orelseRestC, stmtListC, List.length_cons]
          omega

/-- C6: (a) inserting an additional `if` statement anywhere inside existing
code — at any position of any statement list, however deeply nested —
strictly increases the raw cognitive complexity of the module; and (b) an
`if`/`elif` chain with `n` branches has raw complexity at least `n` (each
`else` that is itself an `if` is entered once, with its own nesting
frame). -/
theorem C6_complexity_monotonicity :
    (∀ (l l' : List PyStmt), InsList l l' → moduleC l < moduleC l')
    ∧ (∀ (branches : List (PyExpr × List PyStmt)) (els : List PyStmt),
        branches ≠ [] → branches.length ≤ moduleC [chainIf branches els]) := by
  constructor
  · intro l l' h
    exact insList_lt h 0
  · intro branches els h
    have hc := chain_ge branches els 0 h
    unfold moduleC
    simp only [stmtListC]
    omega

/-- C6 witness: inserting `if CONST: pass` into the body of
`def f(): return` strictly increases raw complexity, and a two-branch
`if`/`elif` chain has raw complexity at least `2`. -/
theorem C6_witness :
    moduleC [.functionDefS "f" [.returnS none]]
      < moduleC [.functionDefS "f" [.ifS .constE [.passS] [], .returnS none]]
    ∧ 2 ≤ moduleC [chainIf [(.nameE "a", [.passS]), (.nameE "b", [.passS])] []] :=
  ⟨C6_complexity_monotonicity.1 _ _
      (InsList.headStep (InsStmt.funcBody (InsList.here [] [.returnS none] .constE [.passS] []))),
   C6_complexity_monotonicity.2 [(.nameE "a", [.passS]), (.nameE "b", [.passS])] []
      (List.cons_ne_nil _ _)⟩

/-! ## Duplication engine: stable hash and winnowing

`_stable_hash` (src/cq/analyzers/duplication.py, lines 106-108) takes the
first 8 hex digits of the MD5 digest, i.e. the first four digest bytes read
big-endian.  MD5 is implemented below (RFC 1321): 32-bit words as `ℕ` with
explicit `% 2^32` masking. -/

/-- Truncate to 32 bits. -/
def mask32 (x : ℕ) : ℕ := x % 4294967296

/-- 32-bit complement. -/
def not32 (x : ℕ) : ℕ := Nat.xor x 4294967295

/-- 32-bit left rotation (for `x < 2^32`, `0 < s < 32`). -/
def rotl32 (x s : ℕ) : ℕ := mask32 (Nat.shiftLeft x s) ||| Nat.shiftRight x (32 - s)

/-- The 64 MD5 sine-table constants `⌊2³² · |sin(i+1)|⌋`. -/
def md5K : List ℕ :=
  [0xd76aa478, 0xe8c7b756, 0x242070db, 0xc1bdceee, 0xf57c0faf, 0x4787c62a, 0xa8304613, 0xfd469501,
   0x698098d8, 0x8b44f7af, 0xffff5bb1, 0x895cd7be, 0x6b901122, 0xfd987193, 0xa679438e, 0x49b40821,
   0xf61e2562, 0xc040b340, 0x265e5a51, 0xe9b6c7aa, 0xd62f105d, 0x02441453, 0xd8a1e681, 0xe7d3fbc8,
   0x21e1cde6, 0xc33707d6, 0xf4d50d87, 0x455a14ed, 0xa9e3e905, 0xfcefa3f8, 0x676f02d9, 0x8d2a4c8a,
   0xfffa3942, 0x8771f681, 0x6d9d6122, 0xfde5380c, 0xa4beea44, 0x4bdecfa9, 0xf6bb4b60, 0xbebfbc70,
   0x289b7ec6, 0xeaa127fa, 0xd4ef3085, 0x04881d05, 0xd9d4d039, 0xe6db99e5, 0x1fa27cf8, 0xc4ac5665,
   0xf4292244, 0x432aff97, 0xab9423a7, 0xfc93a039, 0x655b59c3, 0x8f0ccc92, 0xffeff47d, 0x85845dd1,
   0x6fa87e4f, 0xfe2ce6e0, 0xa3014314, 0x4e0811a1, 0xf7537e82, 0xbd3af235, 0x2ad7d2bb, 0xeb86d391]

/-- The MD5 per-round left-rotation amounts. -/
def md5S : List ℕ :=
  [7, 12, 17, 22, 7, 12, 17, 22, 7, 12, 17, 22, 7, 12, 17, 22,
   5, 9, 14, 20, 5, 9, 14, 20, 5, 9, 14, 20, 5, 9, 14, 20,
   4, 11, 16, 23, 4, 11, 16, 23, 4, 11, 16, 23, 4, 11, 16, 23,
   6, 10, 15, 21, 6, 10, 15, 21, 6, 10, 15, 21, 6, 10, 15, 21]

/-- The MD5 round function for round `i`. -/
def md5F (i B C D : ℕ) : ℕ :=
  if i < 16 then (B &&& C) ||| (not32 B &&& D)
  else if i < 32 then (D &&& B) ||| (not32 D &&& C)
  else if i < 48 then Nat.xor (Nat.xor B C) D
  else Nat.xor C (B ||| not32 D)

/-- The MD5 message-word schedule for round `i`. -/
def md5G (i : ℕ) : ℕ :=
  if i < 16 then i
  else if i < 32 then (5 * i + 1) % 16
  else if i < 48 then (3 * i + 5) % 16
  else (7 * i) % 16

/-- One MD5 round on the state `(A, B, C, D)`. -/
def md5Round (M : List ℕ) (st : ℕ × ℕ × ℕ × ℕ) (i : ℕ) : ℕ × ℕ × ℕ × ℕ :=
  let A := st.1
  let B := st.2.1
  let C := st.2.2.1
  let D := st.2.2.2
  let Fv := mask32 (md5F i B C D + A + md5K.getD i 0 + M.getD (md5G i) 0)
  (D, mask32 (B + rotl32 Fv (md5S.getD i 0)), B, C)

/-- Little-endian 4-byte groups to 32-bit words. -/
def bytesToWords : List ℕ → List ℕ
  | b0 :: b1 :: b2 :: b3 :: rest =>
      (b0 + 256 * b1 + 65536 * b2 + 16777216 * b3) :: bytesToWords rest
  | _ => []

/-- One 512-bit MD5 block: 64 rounds then the Davies-Meyer addition. -/
def md5Block (st : ℕ × ℕ × ℕ × ℕ) (M : List ℕ) : ℕ × ℕ × ℕ × ℕ :=
  let r := (List.range 64).foldl (md5Round M) st
  (mask32 (st.1 + r.1), mask32 (st.2.1 + r.2.1),
   mask32 (st.2.2.1 + r.2.2.1), mask32 (st.2.2.2 + r.2.2.2))

/-- Process the padded byte stream in 64-byte blocks. -/
def md5Loop : (ℕ × ℕ × ℕ × ℕ) → List ℕ → (ℕ × ℕ × ℕ × ℕ)
  | st, [] => st
  | st, b :: rest =>
      md5Loop (md5Block st (bytesToWords ((b :: rest).take 64))) ((b :: rest).drop 64)
  termination_by _ l => l.length
  decreasing_by simp; omega

/-- MD5 padding: `0x80`, zeros to 56 mod 64, then the bit length as eight
little-endian bytes. -/
def md5Pad (msg : List ℕ) : List ℕ :=
  let len := msg.length
  let zeros := (120 - (len + 1) % 64) % 64
  msg ++ [128] ++ List.replicate zeros 0
    ++ (List.range 8).map (fun i => (8 * len / 2 ^ (8 * i)) % 256)

/-- The MD5 digest state of a byte message. -/
def md5Digest (msg : List ℕ) : ℕ × ℕ × ℕ × ℕ :=
  md5Loop (0x67452301, 0xefcdab89, 0x98badcfe, 0x10325476) (md5Pad msg)

/-- Read a little-endian 32-bit word as big-endian (the first four digest
bytes in print order). -/
def byteswap32 (a : ℕ) : ℕ :=
  (a % 256) * 16777216 + (a / 256 % 256) * 65536 + (a / 65536 % 256) * 256 + a / 16777216 % 256

/-- UTF-8 encoding of one character. -/
def utf8Char (c : Char) : List ℕ :=
  let n := c.toNat
  if n < 128 then [n]
  else if n < 2048 then [192 + n / 64, 128 + n % 64]
  else if n < 65536 then [224 + n / 4096, 128 + n / 64 % 64, 128 + n % 64]
  else [240 + n / 262144, 128 + n / 4096 % 64, 128 + n / 64 % 64, 128 + n % 64]

/-- `text.encode("utf-8")`. -/
def strBytes (s : String) : List ℕ := (s.data.map utf8Char).flatten

/-- `_stable_hash` (duplication.py lines 106-108):
`int(hashlib.md5(text.encode()).hexdigest()[:8], 16)`. -/
def stableHash (text : String) : ℕ := byteswap32 (md5Digest (strBytes text)).1

/-! ### Winnowing (`DuplicationAnalyzer._fingerprints`, duplication.py
lines 66-87)

```
k = max(1, self.config.k); w = max(1, self.config.w)
if len(tokens) < k:
    if not tokens: return []
    return [_stable_hash(" ".join(tokens))]
hashes = []; window = []; min_hash = None; min_pos = None
for i in range(len(tokens) - k + 1):
    kgram = tokens[i : i + k]
    hash_val = _stable_hash(" ".join(kgram))
    window.append((hash_val, i))
    if len(window) > w: window.pop(0)
    current_min = min(window, key=lambda x: (x[0], x[1]))
    if (min_hash, min_pos) != current_min:
        min_hash, min_pos = current_min
        hashes.append(current_min[0])
return hashes
```
-/

/-- `min(window, key=lambda x: (x[0], x[1]))` as a left fold keeping the
earliest minimum (Python `min` keeps the first of equal keys; here keys are
the pairs themselves, compared lexicographically). -/
def pyMinFold (acc : ℕ × ℕ) (l : List (ℕ × ℕ)) : ℕ × ℕ :=
  l.foldl (fun m x => if x.1 < m.1 ∨ (x.1 = m.1 ∧ x.2 < m.2) then x else m) acc

/-- `min` of a non-empty window (`(0,0)` as junk value for `[]`, which the
algorithm never passes). -/
def pyMin : List (ℕ × ℕ) → ℕ × ℕ
  | [] => (0, 0)
  | p :: rest => pyMinFold p rest

/-- `window.append(p); if len(window) > w: window.pop(0)`. -/
def winnowPush (w : ℕ) (window : List (ℕ × ℕ)) (p : ℕ × ℕ) : List (ℕ × ℕ) :=
  let wd := window ++ [p]
  if w < wd.length then wd.tail else wd

/-- The winnowing loop: state is the current window and the last selected
`(min_hash, min_pos)` pair; a hash is appended whenever the selected
minimum changes. -/
def winnowGo (w : ℕ) : List (ℕ × ℕ) → Option (ℕ × ℕ) → List (ℕ × ℕ) → List ℕ
  | _, _, [] => []
  | window, last, p :: rest =>
      let wd := winnowPush w window p
      let m := pyMin wd
      if last = some m then winnowGo w wd (some m) rest
      else m.1 :: winnowGo w wd (some m) rest

/-- The hash of the `k`-gram starting at position `i`:
`_stable_hash(" ".join(tokens[i:i+k]))`. -/
def kgramHash (k : ℕ) (tokens : List String) (i : ℕ) : ℕ :=
  stableHash (" ".intercalate ((tokens.drop i).take k))

/-- `_fingerprints` (duplication.py lines 66-87). -/
def fingerprints (k w : ℕ) (tokens : List String) : List ℕ :=
  let kk := max 1 k
  let ww := max 1 w
  if tokens.length < kk then
    if tokens = [] then [] else [stableHash (" ".intercalate tokens)]
  else
    winnowGo ww [] none
      ((List.range (tokens.length - kk + 1)).map (fun i => (kgramHash kk tokens i, i)))

/-! ## Claim C5: the winnowing guarantee

Any two token streams sharing a contiguous run of at least `k + w - 1`
equal tokens produce at least one common fingerprint hash.  The proof goes
through three facts about the loop of `_fingerprints`:

* `go_covers`: the minimum of *every* window along the run has its hash in
  the output (it is appended the first time it becomes the selected
  minimum, and the `(min_hash, min_pos) != current_min` guard only
  suppresses re-appending the same selection);
* `wndAfter_closed`/`window_segment`: after processing position
  `p + w - 1` the window is exactly the `w` k-gram hashes starting at `p`;
* `fold_offsets`/`pyMin_offsets`: `min` with the `(hash, position)` key is
  computed identically on two windows holding the same hash values at
  positions shifted by a constant, because ties are broken by *relative*
  position.
-/

/-- The window contents after the winnowing loop has processed prefix
positions `0..i` of its pair list. -/
def wndAfter (w : ℕ) : List (ℕ × ℕ) → List (ℕ × ℕ) → ℕ → List (ℕ × ℕ)
  | window, [], _ => window
  | window, p :: _, 0 => winnowPush w window p
  | window, p :: rest, i + 1 => wndAfter w (winnowPush w window p) rest i

theorem go_covers (w : ℕ) : ∀ (rest : List (ℕ × ℕ)) (window : List (ℕ × ℕ))
    (last : Option (ℕ × ℕ)) (i : ℕ), i < rest.length →
    (pyMin (wndAfter w window rest i)).1 ∈ winnowGo w window last rest
      ∨ last = some (pyMin (wndAfter w window rest i))
  | [], _, _, i, hi => absurd hi (by simp)
  | p :: rest, window, last, 0, _ => by
      by_cases he : last = some (pyMin (winnowPush w window p))
      · exact Or.inr (by rw [he]; rfl)
      · left
        simp only [winnowGo, wndAfter]
        rw [if_neg (by exact he)]
        exact List.mem_cons_self _ _
  | p :: rest, window, last, i + 1, hi => by
      have hlt : i < rest.length := by simpa using hi
      have ih := go_covers w rest (winnowPush w window p)
        (some (pyMin (winnowPush w window p))) i hlt
      rcases ih with hmem | heq
      · left
        simp only [winnowGo, wndAfter]
        by_cases he : last = some (pyMin (winnowPush w window p))
        · rw [if_pos he]
          exact hmem
        · rw [if_neg he]
          exact List.mem_cons_of_mem _ hmem
      · -- the min at step i+1 equals the min after the first push
        have heq2 : pyMin (wndAfter w (winnowPush w window p) rest i)
            = pyMin (winnowPush w window p) := by
          have := Option.some_injective _ heq
          rw [← this]
        rw [show wndAfter w window (p :: rest) (i + 1)
            = wndAfter w (winnowPush w window p) rest i from rfl]
        by_cases he : last = some (pyMin (wndAfter w (winnowPush w window p) rest i))
        · exact Or.inr he
        · left
          simp only [winnowGo]
          rw [heq2] at he ⊢
          rw [if_neg he]
          exact List.mem_cons_self _ _

theorem winnowPush_closed (w : ℕ) (window : List (ℕ × ℕ)) (p : ℕ × ℕ)
    (hlen : window.length ≤ w) :
    winnowPush w window p = (window ++ [p]).drop (window.length + 1 - w)
      ∧ (winnowPush w window p).length ≤ w := by
  unfold winnowPush
  by_cases hc : w < (window ++ [p]).length
  · rw [if_pos hc]
    have hl : (window ++ [p]).length = window.length + 1 := by simp
    have hw : window.length = w := by omega
    constructor
    · rw [← List.drop_one]
      congr 1
      omega
    · simp [hw]
  · rw [if_neg hc]
    have hl : (window ++ [p]).length = window.length + 1 := by simp
    constructor
    · have : window.length + 1 - w = 0 := by omega
      rw [this, List.drop_zero]
    · simp
      omega

theorem wndAfter_closed (w : ℕ) : ∀ (rest : List (ℕ × ℕ)) (window : List (ℕ × ℕ)) (i : ℕ),
    i < rest.length → window.length ≤ w →
    wndAfter w window rest i
      = (window ++ rest.take (i + 1)).drop (window.length + (i + 1) - w)
  | [], _, i, hi, _ => absurd hi (by simp)
  | p :: rest, window, 0, _, hlen => by
      simp only [wndAfter, List.take_succ_cons, List.take_zero]
      exact (winnowPush_closed w window p hlen).1
  | p :: rest, window, i + 1, hi, hlen => by
      have hlt : i < rest.length := by simpa using hi
      obtain ⟨hpush, hpushlen⟩ := winnowPush_closed w window p hlen
      have ih := wndAfter_closed w rest (winnowPush w window p) i hlt hpushlen
      show wndAfter w (winnowPush w window p) rest i = _
      rw [ih, hpush]
      have hlen2 : ((window ++ [p]).drop (window.length + 1 - w)).length
          = window.length + 1 - (window.length + 1 - w) := by simp
      rw [hlen2]
      have hle : window.length + 1 - w ≤ (window ++ [p]).length := by
        simp only [List.length_append, List.length_cons, List.length_nil]
        omega
      rw [← List.drop_append_of_le_length hle, List.drop_drop]
      have hassoc : (window ++ [p]) ++ rest.take (i + 1)
          = window ++ (p :: rest).take (i + 1 + 1) := by
        simp [List.take_succ_cons]
      rw [hassoc]
      congr 1
      omega

theorem fold_offsets : ∀ (os : List ℕ) (v : ℕ → ℕ) (p q x u : ℕ),
    ∃ y r, pyMinFold (x, p + u) (os.map (fun o => (v o, p + o))) = (y, p + r)
      ∧ pyMinFold (x, q + u) (os.map (fun o => (v o, q + o))) = (y, q + r)
  | [], _, p, q, x, u => ⟨x, u, rfl, rfl⟩
  | o :: os, v, p, q, x, u => by
      simp only [List.map_cons]
      unfold pyMinFold
      simp only [List.foldl_cons]
      by_cases hc : v o < x ∨ (v o = x ∧ o < u)
      · have hp : (v o < x ∨ (v o = x ∧ p + o < p + u)) := by
          rcases hc with h | ⟨h1, h2⟩
          · exact Or.inl h
          · exact Or.inr ⟨h1, by omega⟩
        have hq : (v o < x ∨ (v o = x ∧ q + o < q + u)) := by
          rcases hc with h | ⟨h1, h2⟩
          · exact Or.inl h
          · exact Or.inr ⟨h1, by omega⟩
        rw [if_pos hp, if_pos hq]
        exact fold_offsets os v p q (v o) o
      · have hp : ¬ (v o < x ∨ (v o = x ∧ p + o < p + u)) := by
          intro hx
          apply hc
          rcases hx with h | ⟨h1, h2⟩
          · exact Or.inl h
          · exact Or.inr ⟨h1, by omega⟩
        have hq : ¬ (v o < x ∨ (v o = x ∧ q + o < q + u)) := by
          intro hx
          apply hc
          rcases hx with h | ⟨h1, h2⟩
          · exact Or.inl h
          · exact Or.inr ⟨h1, by omega⟩
        rw [if_neg hp, if_neg hq]
        exact fold_offsets os v p q x u

theorem pyMin_offsets (os : List ℕ) (v : ℕ → ℕ) (p q o0 : ℕ) :
    (pyMin ((o0 :: os).map (fun o => (v o, p + o)))).1
      = (pyMin ((o0 :: os).map (fun o => (v o, q + o)))).1 := by
  show (pyMinFold (v o0, p + o0) (os.map (fun o => (v o, p + o)))).1
    = (pyMinFold (v o0, q + o0) (os.map (fun o => (v o, q + o)))).1
  obtain ⟨y, r, h1, h2⟩ := fold_offsets os v p q (v o0) o0
  rw [h1, h2]

theorem window_segment (w numK : ℕ) (f : ℕ → ℕ) (p : ℕ) (hw : 1 ≤ w)
    (hle : p + w ≤ numK) :
    wndAfter w [] ((List.range numK).map (fun i => (f i, i))) (p + w - 1)
      = (List.range w).map (fun o => (f (p + o), p + o)) := by
  have hi : p + w - 1 < ((List.range numK).map (fun i => (f i, i))).length := by
    simp only [List.length_map, List.length_range]
    omega
  rw [wndAfter_closed w _ [] (p + w - 1) hi (by simp)]
  simp only [List.nil_append, List.length_nil]
  have he1 : p + w - 1 + 1 = p + w := by omega
  rw [he1]
  have he2 : 0 + (p + w) - w = p := by omega
  rw [he2]
  rw [← List.map_take, List.take_range]
  have hmin : min (p + w) numK = p + w := by omega
  rw [hmin, ← List.map_drop]
  have hdr : (List.range (p + w)).drop p = (List.range w).map (fun o => p + o) := by
    rw [List.range_add]
    have h := List.drop_left (List.range p) ((List.range w).map (fun x => p + x))
    rwa [List.length_range] at h
  rw [hdr, List.map_map]
  rfl

theorem kgram_eq (k w : ℕ) (A B : List String) (p q : ℕ)
    (hk : 1 ≤ k) (hw : 1 ≤ w)
    (hlenA : p + (k + w - 1) ≤ A.length)
    (hshare : ∀ t, t < k + w - 1 → A.get? (p + t) = B.get? (q + t)) :
    ∀ o, o < w → kgramHash k A (p + o) = kgramHash k B (q + o) := by
  intro o ho
  unfold kgramHash
  congr 1
  congr 1
  apply List.ext_get?
  intro n
  by_cases hn : n < k
  · rw [List.get?_take hn, List.get?_take hn, List.get?_drop, List.get?_drop]
    have ht : o + n < k + w - 1 := by omega
    have := hshare (o + n) ht
    have hpa : p + o + n = p + (o + n) := by omega
    have hqa : q + o + n = q + (o + n) := by omega
    rw [hpa, hqa]
    exact this
  · -- both takes have length exactly k here on the A side, and on the B side
    -- the take length is at most k, so both lookups are out of range
    have hA : ((A.drop (p + o)).take k).get? n = none := by
      rw [List.get?_eq_none]
      have := List.length_take k (A.drop (p + o))
      omega
    have hB : ((B.drop (q + o)).take k).get? n = none := by
      rw [List.get?_eq_none]
      have := List.length_take k (B.drop (q + o))
      omega
    rw [hA, hB]

theorem C5_winnowing_guarantee (k w : ℕ) (A B : List String) (p q : ℕ)
    (hk : 1 ≤ k) (hw : 1 ≤ w)
    (hlenA : p + (k + w - 1) ≤ A.length) (hlenB : q + (k + w - 1) ≤ B.length)
    (hshare : ∀ t, t < k + w - 1 → A.get? (p + t) = B.get? (q + t)) :
    ∃ v, v ∈ fingerprints k w A ∧ v ∈ fingerprints k w B := by
  have hkk : max 1 k = k := max_eq_right hk
  have hww : max 1 w = w := max_eq_right hw
  have hAk : ¬ (A.length < k) := by omega
  have hBk : ¬ (B.length < k) := by omega
  have hnumA : p + w ≤ A.length - k + 1 := by omega
  have hnumB : q + w ≤ B.length - k + 1 := by omega
  have hfA : fingerprints k w A = winnowGo w [] none
      ((List.range (A.length - k + 1)).map (fun i => (kgramHash k A i, i))) := by
    simp only [fingerprints, hkk, hww]
    rw [if_neg hAk]
  have hfB : fingerprints k w B = winnowGo w [] none
      ((List.range (B.length - k + 1)).map (fun i => (kgramHash k B i, i))) := by
    simp only [fingerprints, hkk, hww]
    rw [if_neg hBk]
  have hsegA := window_segment w (A.length - k + 1) (fun i => kgramHash k A i) p hw hnumA
  have hsegB := window_segment w (B.length - k + 1) (fun i => kgramHash k B i) q hw hnumB
  have hcovA := go_covers w ((List.range (A.length - k + 1)).map (fun i => (kgramHash k A i, i)))
    [] none (p + w - 1) (by simp only [List.length_map, List.length_range]; omega)
  have hcovB := go_covers w ((List.range (B.length - k + 1)).map (fun i => (kgramHash k B i, i)))
    [] none (q + w - 1) (by simp only [List.length_map, List.length_range]; omega)
  rcases hcovA with hmemA | habsA
  swap
  · exact absurd habsA (by simp)
  rcases hcovB with hmemB | habsB
  swap
  · exact absurd habsB (by simp)
  rw [hsegA] at hmemA
  rw [hsegB] at hmemB
  have hkg := kgram_eq k w A B p q hk hw hlenA hshare
  have hBwin : (List.range w).map (fun o => (kgramHash k B (q + o), q + o))
      = (List.range w).map (fun o => (kgramHash k A (p + o), q + o)) := by
    apply List.map_congr_left
    intro o ho
    rw [List.mem_range] at ho
    rw [hkg o ho]
  rw [hBwin] at hmemB
  obtain ⟨w', rfl⟩ : ∃ w', w = w' + 1 := ⟨w - 1, by omega⟩
  have hmin : (pyMin ((List.range (w' + 1)).map
        (fun o => (kgramHash k A (p + o), p + o)))).1
      = (pyMin ((List.range (w' + 1)).map
        (fun o => (kgramHash k A (p + o), q + o)))).1 := by
    rw [List.range_succ_eq_map]
    exact pyMin_offsets ((List.range w').map Nat.succ) (fun o => kgramHash k A (p + o)) p q 0
  refine ⟨(pyMin ((List.range (w' + 1)).map
      (fun o => (kgramHash k A (p + o), p + o)))).1, ?_, ?_⟩
  · rw [hfA]
    exact hmemA
  · rw [hfB]
    rw [← hmin] at hmemB
    exact hmemB

/-- C5 witness: the guarantee applied to the one-token streams
`["a"]`/`["a"]` with `k = w = 1` (shared run of length `k + w - 1 = 1`). -/
theorem C5_witness :
    ∃ v, v ∈ fingerprints 1 1 ["a"] ∧ v ∈ fingerprints 1 1 ["a"] :=
  C5_winnowing_guarantee 1 1 ["a"] ["a"] 0 0 (le_refl 1) (le_refl 1)
    (by norm_num) (by norm_num) (fun t _ => rfl)

/-! ## Claim C4: duplication idempotence under rename

The duplication pipeline (duplication.py `_normalize`, lines 37-53) parses a
file, rewrites the tree with `NormalizingTransformer` (ast_tools.py lines
8-45), unparses it, strips comments, splits on whitespace and fingerprints
the tokens.  We embed a fragment of the Python AST rich enough to exercise
every `visit_*` method of the transformer, the exact per-method rewrites,
`ast.unparse` for that fragment, and the comment-stripping / tokenizing
steps of `_normalize`. -/

/-- Python literal constants (the `ast.Constant` payloads we model). -/
inductive NLit where
  | intL (n : ℤ)
  | strL (s : String)
  | boolL (b : Bool)
  | noneL

/-- Expression fragment: `ast.Name`, `ast.Attribute`, `ast.Constant`. -/
inductive NExpr where
  | nameE (id : String)
  | attrE (value : NExpr) (attr : String)
  | constE (value : NLit)

/-- A function parameter `ast.arg`: name plus optional annotation. -/
structure NArg where
  name : String
  annotation : Option NExpr

/-- Statement fragment: `ast.FunctionDef`, `ast.ClassDef`, `ast.Return`,
`ast.Assign` (single target), `ast.Expr`, `ast.Pass`. -/
inductive NStmt where
  | functionDef (name : String) (args : List NArg) (body : List NStmt)
  | classDef (name : String) (body : List NStmt)
  | ret (value : Option NExpr)
  | assign (target value : NExpr)
  | exprStmt (value : NExpr)
  | pass

/-- `NormalizingTransformer` on expressions: `visit_Name` replaces the id
with the placeholder, `visit_Attribute` recurses into the value and replaces
the attribute suffix, `visit_Constant` replaces every literal with the
string constant `"CONST"` (ast_tools.py lines 14-26). -/
def normExpr (ph : String) : NExpr → NExpr
  | .nameE _ => .nameE ph
  | .attrE v _ => .attrE (normExpr ph v) ph
  | .constE _ => .constE (.strL "CONST")

/-- `visit_arg` (ast_tools.py lines 43-45): it sets `node.arg` to the
placeholder and returns the node WITHOUT calling `generic_visit`, so the
annotation expression is left untouched. -/
def normArg (ph : String) (a : NArg) : NArg :=
  ⟨ph, a.annotation⟩

mutual
/-- The transformer on statements: `visit_FunctionDef` / `visit_ClassDef`
rename and `generic_visit` the children (ast_tools.py lines 28-41); other
statements have no visitor, so `generic_visit` maps the transform over
their child expressions. -/
def normStmt (ph : String) : NStmt → NStmt
  | .functionDef _ args body =>
      .functionDef ph (args.map (normArg ph)) (normStmtList ph body)
  | .classDef _ body => .classDef ph (normStmtList ph body)
  | .ret v => .ret (v.map (normExpr ph))
  | .assign t v => .assign (normExpr ph t) (normExpr ph v)
  | .exprStmt v => .exprStmt (normExpr ph v)
  | .pass => .pass

/-- The transformer mapped over a statement list. -/
def normStmtList (ph : String) : List NStmt → List NStmt
  | [] => []
  | s :: rest => normStmt ph s :: normStmtList ph rest
end

/-- `ast.unparse` rendering of a literal (`repr` for strings uses single
quotes; our examples contain no quote characters). -/
def unparseLit : NLit → String
  | .intL n => toString n
  | .strL s => "'" ++ s ++ "'"
  | .boolL b => if b then "True" else "False"
  | .noneL => "None"

/-- `ast.unparse` rendering of an expression. -/
def unparseExpr : NExpr → String
  | .nameE id => id
  | .attrE v a => unparseExpr v ++ "." ++ a
  | .constE l => unparseLit l

/-- `ast.unparse` rendering of a parameter: `name` or `name: annotation`. -/
def unparseArg (a : NArg) : String :=
  a.name ++ (match a.annotation with
    | some e => ": " ++ unparseExpr e
    | none => "")

mutual
/-- Lines of `ast.unparse` for one statement at the given indentation.
CPython's unparser emits a blank separator line before a function or class
definition except at the very start of the output. -/
def stmtLines (ind : String) (atStart : Bool) : NStmt → List String
  | .functionDef n args body =>
      (if atStart then [] else [""])
        ++ [ind ++ "def " ++ n ++ "(" ++ ", ".intercalate (args.map unparseArg) ++ "):"]
        ++ blockLines (ind ++ "    ") body
  | .classDef n body =>
      (if atStart then [] else [""]) ++ [ind ++ "class " ++ n ++ ":"]
        ++ blockLines (ind ++ "    ") body
  | .ret v => [ind ++ (match v with
      | some e => "return " ++ unparseExpr e
      | none => "return")]
  | .assign t v => [ind ++ unparseExpr t ++ " = " ++ unparseExpr v]
  | .exprStmt v => [ind ++ unparseExpr v]
  | .pass => [ind ++ "pass"]

/-- Lines of a nested (non-module) statement block; inside a block the
blank-separator rule applies to every definition. -/
def blockLines (ind : String) : List NStmt → List String
  | [] => []
  | s :: rest => stmtLines ind false s ++ blockLines ind rest
end

/-- Lines of a module body: the first statement is at the start of the
output, so it gets no separator line. -/
def moduleLines : Bool → List NStmt → List String
  | _, [] => []
  | atStart, s :: rest => stmtLines "" atStart s ++ moduleLines false rest

/-- `ast.unparse` of a module. -/
def unparseModule (m : List NStmt) : String :=
  "\n".intercalate (moduleLines true m)

/-- `text.splitlines()` over a character list (no trailing empty line). -/
def splitLinesAux : List Char → List Char → List (List Char)
  | [], acc => if acc = [] then [] else [acc.reverse]
  | c :: rest, acc =>
      if c = '\n' then acc.reverse :: splitLinesAux rest []
      else splitLinesAux rest (c :: acc)

/-- Python `str.strip()` on a line of characters. -/
def pyStripCh (line : List Char) : List Char :=
  ((line.dropWhile Char.isWhitespace).reverse.dropWhile Char.isWhitespace).reverse

/-- One line of `_strip_comments` (duplication.py lines 56-64): a line whose
stripped form starts with `#` is dropped; otherwise any `#` suffix is cut. -/
def stripLine (line : List Char) : Option (List Char) :=
  if (pyStripCh line).head? = some '#' then none
  else if line.contains '#' then some (line.takeWhile (fun c => c ≠ '#'))
  else some line

/-- `_strip_comments`: rejoin the surviving lines with newlines. -/
def stripComments (text : String) : String :=
  String.mk (List.intercalate ['\n'] ((splitLinesAux text.data []).filterMap stripLine))

/-- Python `str.split()` with no argument: split on whitespace runs,
dropping empty pieces. -/
def splitWsAux : List Char → List Char → List (List Char)
  | [], acc => if acc = [] then [] else [acc.reverse]
  | c :: rest, acc =>
      if c.isWhitespace then
        (if acc = [] then splitWsAux rest [] else acc.reverse :: splitWsAux rest [])
      else splitWsAux rest (c :: acc)

/-- `text.split()` as used by `_normalize` (duplication.py line 53). -/
def pySplit (s : String) : List String :=
  (splitWsAux s.data []).map String.mk

/-- The token stream `_normalize` produces for a parsed module: transform,
unparse, strip comments, split on whitespace (duplication.py lines 44-53). -/
def dupTokens (ph : String) (m : List NStmt) : List String :=
  pySplit (stripComments (unparseModule (normStmtList ph m)))

/-- The fingerprint list `_fingerprints(_normalize(...))` of a parsed
module (duplication.py lines 66-87 applied to the `_normalize` tokens). -/
def dupFingerprints (ph : String) (k w : ℕ) (m : List NStmt) : List ℕ :=
  fingerprints k w (dupTokens ph m)

/-- Module `def f(x: 'A'): pass` — one parameter annotated with the string
literal `'A'`. -/
def exM1 : List NStmt :=
  [.functionDef "f" [⟨"x", some (.constE (.strL "A"))⟩] [.pass]]

/-- The same module after a kind-preserving relabeling that also changes
the annotation literal to `'B C'` (a string literal containing a space). -/
def exM2 : List NStmt :=
  [.functionDef "g" [⟨"y", some (.constE (.strL "B C"))⟩] [.pass]]

/-- Two literals of the same kind (int/int, str/str, bool/bool, None/None),
with arbitrary values. -/
inductive SameLitKind : NLit → NLit → Prop where
  | ints (m n : ℤ) : SameLitKind (.intL m) (.intL n)
  | strs (s t : String) : SameLitKind (.strL s) (.strL t)
  | bools (a b : Bool) : SameLitKind (.boolL a) (.boolL b)
  | nones : SameLitKind .noneL .noneL

/-- Expression-level relabeling: rename any identifier or attribute suffix,
replace any literal by one of the same kind. -/
inductive RenExpr : NExpr → NExpr → Prop where
  | name (a b : String) : RenExpr (.nameE a) (.nameE b)
  | attr {v v' : NExpr} (a b : String) : RenExpr v v' → RenExpr (.attrE v a) (.attrE v' b)
  | const {l l' : NLit} : SameLitKind l l' → RenExpr (.constE l) (.constE l')

/-- Relabeling of an optional expression. -/
inductive RenOptExpr : Option NExpr → Option NExpr → Prop where
  | none : RenOptExpr none none
  | some {e e' : NExpr} : RenExpr e e' → RenOptExpr (some e) (some e')

/-- Parameter relabeling.  In strict mode the annotation must be kept
verbatim; in free mode (`strict = false`, the claim's reading) it may
itself be relabeled. -/
inductive RenArg : Bool → NArg → NArg → Prop where
  | strictArg (strict : Bool) (n n' : String) (ann : Option NExpr) :
      RenArg strict ⟨n, ann⟩ ⟨n', ann⟩
  | freeArg (n n' : String) {ann ann' : Option NExpr} :
      RenOptExpr ann ann' → RenArg false ⟨n, ann⟩ ⟨n', ann'⟩

/-- Pointwise relabeling of a parameter list. -/
inductive RenArgList (strict : Bool) : List NArg → List NArg → Prop where
  | nil : RenArgList strict [] []
  | cons {a a' : NArg} {l l' : List NArg} :
      RenArg strict a a' → RenArgList strict l l' → RenArgList strict (a :: l) (a' :: l')

mutual
/-- Statement-level relabeling: rename every function, class, parameter and
attribute name and every identifier use, and change literals within their
kind, preserving the tree shape. -/
inductive RenStmt : Bool → NStmt → NStmt → Prop where
  | fdef (strict : Bool) (n n' : String) {args args' : List NArg} {body body' : List NStmt} :
      RenArgList strict args args' → RenStmtList strict body body' →
      RenStmt strict (.functionDef n args body) (.functionDef n' args' body')
  | cdef (strict : Bool) (n n' : String) {body body' : List NStmt} :
      RenStmtList strict body body' → RenStmt strict (.classDef n body) (.classDef n' body')
  | ret (strict : Bool) {v v' : Option NExpr} :
      RenOptExpr v v' → RenStmt strict (.ret v) (.ret v')
  | assign (strict : Bool) {t t' v v' : NExpr} :
      RenExpr t t' → RenExpr v v' → RenStmt strict (.assign t v) (.assign t' v')
  | exprStmt (strict : Bool) {v v' : NExpr} :
      RenExpr v v' → RenStmt strict (.exprStmt v) (.exprStmt v')
  | pass (strict : Bool) : RenStmt strict .pass .pass

/-- Module-level relabeling. -/
inductive RenStmtList : Bool → List NStmt → List NStmt → Prop where
  | nil (strict : Bool) : RenStmtList strict [] []
  | cons (strict : Bool) {s s' : NStmt} {l l' : List NStmt} :
      RenStmt strict s s' → RenStmtList strict l l' →
      RenStmtList strict (s :: l) (s' :: l')
end

/-- The transformer collapses any expression relabeling: both sides
normalize to the same expression. -/
theorem renExpr_norm (ph : String) : ∀ {e e' : NExpr}, RenExpr e e' →
    normExpr ph e = normExpr ph e'
  | _, _, .name a b => rfl
  | _, _, .attr a b h => by
      simp only [normExpr]
      rw [renExpr_norm ph h]
  | _, _, .const _ => rfl

/-- Optional-expression version of `renExpr_norm`. -/
theorem renOpt_norm (ph : String) {v v' : Option NExpr} (h : RenOptExpr v v') :
    v.map (normExpr ph) = v'.map (normExpr ph) := by
  cases h with
  | none => rfl
  | some he => simp only [Option.map]; rw [renExpr_norm ph he]

/-- In strict mode a relabeled parameter normalizes identically: the name
is replaced and the (unchanged) annotation is carried over verbatim. -/
theorem renArg_norm (ph : String) {a a' : NArg} (h : RenArg true a a') :
    normArg ph a = normArg ph a' := by
  cases h with
  | strictArg _ n n' ann => rfl

/-- List version of `renArg_norm`. -/
theorem renArgList_norm (ph : String) {l l' : List NArg} (h : RenArgList true l l') :
    l.map (normArg ph) = l'.map (normArg ph) := by
  induction h with
  | nil => rfl
  | cons ha _ ih => simp only [List.map_cons]; rw [renArg_norm ph ha, ih]

mutual
/-- Strict statement relabelings are collapsed by the transformer. -/
theorem renStmt_norm (ph : String) : ∀ {s s' : NStmt}, RenStmt true s s' →
    normStmt ph s = normStmt ph s'
  | _, _, .fdef _ n n' hargs hbody => by
      simp only [normStmt]
      rw [renArgList_norm ph hargs, renStmtList_norm ph hbody]
  | _, _, .cdef _ n n' hbody => by
      simp only [normStmt]
      rw [renStmtList_norm ph hbody]
  | _, _, .ret _ hv => by
      simp only [normStmt]
      rw [renOpt_norm ph hv]
  | _, _, .assign _ ht hv => by
      simp only [normStmt]
      rw [renExpr_norm ph ht, renExpr_norm ph hv]
  | _, _, .exprStmt _ hv => by
      simp only [normStmt]
      rw [renExpr_norm ph hv]
  | _, _, .pass _ => rfl

/-- Strict module relabelings are collapsed by the transformer. -/
theorem renStmtList_norm (ph : String) : ∀ {l l' : List NStmt}, RenStmtList true l l' →
    normStmtList ph l = normStmtList ph l'
  | _, _, .nil _ => rfl
  | _, _, .cons _ hs hl => by
      simp only [normStmtList]
      rw [renStmt_norm ph hs, renStmtList_norm ph hl]
end

/-- With `w = 1` a push into a window of at most one element always yields
the singleton window `[p]`. -/
theorem winnowPush_w1 (window : List (ℕ × ℕ)) (p : ℕ × ℕ) (hw : window.length ≤ 1) :
    winnowPush 1 window p = [p] := by
  match window, hw with
  | [], _ => rfl
  | [x], _ => rfl

/-- With `w = 1` and position-distinct pairs the winnowing loop emits one
hash per pair: the selected minimum is the new pair itself, whose position
differs from the previously selected one. -/
theorem winnowGo_w1_len : ∀ (pairs window : List (ℕ × ℕ)) (last : Option (ℕ × ℕ)),
    window.length ≤ 1 →
    List.Pairwise (fun a b => a.2 ≠ b.2) pairs →
    (∀ m, last = some m → ∀ x ∈ pairs, m.2 ≠ x.2) →
    (winnowGo 1 window last pairs).length = pairs.length
  | [], _, _, _, _, _ => rfl
  | p :: rest, window, last, hw, hpw, hlast => by
      have hpush := winnowPush_w1 window p hw
      have hne : ¬ last = some p := fun he => hlast p he p (List.mem_cons_self p rest) rfl
      have hpair := List.pairwise_cons.mp hpw
      show (let wd := winnowPush 1 window p
            let m := pyMin wd
            if last = some m then winnowGo 1 wd (some m) rest
            else m.1 :: winnowGo 1 wd (some m) rest).length = (p :: rest).length
      rw [hpush]
      show (if last = some (pyMin [p]) then winnowGo 1 [p] (some (pyMin [p])) rest
            else (pyMin [p]).1 :: winnowGo 1 [p] (some (pyMin [p])) rest).length
          = (p :: rest).length
      have hmin : pyMin [p] = p := rfl
      rw [hmin, if_neg hne, List.length_cons, List.length_cons]
      rw [winnowGo_w1_len rest [p] (some p) (by simp) hpair.2
        (fun m hm x hx => by cases hm; exact hpair.1 x hx)]

/-- With `k = w = 1` the fingerprint list of a non-empty token stream has
exactly one hash per token. -/
theorem fingerprints_w1_length (tokens : List String) (hne : tokens ≠ []) :
    (fingerprints 1 1 tokens).length = tokens.length := by
  have hlen : 0 < tokens.length := List.length_pos.mpr hne
  show (if tokens.length < max 1 1 then
          if tokens = [] then [] else [stableHash (" ".intercalate tokens)]
        else winnowGo (max 1 1) [] none
          ((List.range (tokens.length - max 1 1 + 1)).map
            (fun i => (kgramHash (max 1 1) tokens i, i)))).length = tokens.length
  rw [if_neg (by omega)]
  have h11 : (max 1 1 : ℕ) = 1 := rfl
  rw [h11]
  have hp : List.Pairwise
      (fun (a b : ℕ × ℕ) => a.2 ≠ b.2)
      ((List.range (tokens.length - 1 + 1)).map
        (fun i => (kgramHash 1 tokens i, i))) := by
    refine List.Pairwise.map _ (fun a b h => ?_) (List.pairwise_lt_range _)
    simp only []
    omega
  rw [winnowGo_w1_len _ [] none (by simp) hp (fun m hm => by cases hm)]
  rw [List.length_map, List.length_range]
  omega

/-- C4 counterexample: the relabeling that renames `f`/`x` to `g`/`y` and
changes the annotation string literal `'A'` to `'B C'` (same kind) is a
rename in the claim's sense, yet the fingerprint lists differ at the
`k = 1`, `w = 1` configuration — `visit_arg` never normalizes annotation
expressions, so the literal survives into the token stream and the second
module even tokenizes to five tokens instead of four. -/
theorem C4_counterexample :
    RenStmtList false exM1 exM2 ∧
      dupFingerprints "ID" 1 1 exM1 ≠ dupFingerprints "ID" 1 1 exM2 := by
  refine ⟨?_, ?_⟩
  · exact RenStmtList.cons false
      (RenStmt.fdef false "f" "g"
        (RenArgList.cons
          (RenArg.freeArg "x" "y"
            (RenOptExpr.some (RenExpr.const (SameLitKind.strs "A" "B C"))))
          RenArgList.nil)
        (RenStmtList.cons false (RenStmt.pass false) (RenStmtList.nil false)))
      (RenStmtList.nil false)
  · intro he
    have h1 : dupTokens "ID" exM1 = ["def", "ID(ID:", "'A'):", "pass"] := by decide
    have h2 : dupTokens "ID" exM2 = ["def", "ID(ID:", "'B", "C'):", "pass"] := by decide
    have l1 : (dupFingerprints "ID" 1 1 exM1).length = 4 := by
      show (fingerprints 1 1 (dupTokens "ID" exM1)).length = 4
      rw [h1, fingerprints_w1_length _ (by decide)]
      rfl
    have l2 : (dupFingerprints "ID" 1 1 exM2).length = 5 := by
      show (fingerprints 1 1 (dupTokens "ID" exM2)).length = 5
      rw [h2, fingerprints_w1_length _ (by decide)]
      rfl
    rw [he, l2] at l1
    exact absurd l1 (by norm_num)

/-- C4 (corrected): relabelings that rename function, class, parameter and
attribute names, rename identifier uses outside annotations, and change
literals within their kind — but keep parameter annotations verbatim —
leave the fingerprint list unchanged, for every placeholder and every
`k`, `w` configuration.  The transformer maps both modules to the same
normalized tree, so the whole downstream pipeline agrees. -/
theorem C4_rename_invariance (ph : String) (k w : ℕ) {m m' : List NStmt}
    (h : RenStmtList true m m') :
    dupFingerprints ph k w m = dupFingerprints ph k w m' := by
  show fingerprints k w (pySplit (stripComments (unparseModule (normStmtList ph m))))
      = fingerprints k w (pySplit (stripComments (unparseModule (normStmtList ph m'))))
  rw [renStmtList_norm ph h]

/-- C4 witness: the invariance at the default configuration `k = 25`,
`w = 4`, applied to `def f(x: T): return x` versus `def g(y: T): return z`
(parameter annotation kept verbatim). -/
theorem C4_witness :
    dupFingerprints "ID" 25 4
        [.functionDef "f" [⟨"x", some (.nameE "T")⟩] [.ret (some (.nameE "x"))]]
      = dupFingerprints "ID" 25 4
        [.functionDef "g" [⟨"y", some (.nameE "T")⟩] [.ret (some (.nameE "z"))]] :=
  C4_rename_invariance "ID" 25 4
    (RenStmtList.cons true
      (RenStmt.fdef true "f" "g"
        (RenArgList.cons (RenArg.strictArg true "x" "y" (some (.nameE "T"))) RenArgList.nil)
        (RenStmtList.cons true
          (RenStmt.ret true (RenOptExpr.some (RenExpr.name "x" "z")))
          (RenStmtList.nil true)))
      (RenStmtList.nil true))
